import Mathlib

/-!
# PackBits (yetdragon/packbits-ts) — verification of the specification

Shallow embedding of the PackBits run-length encoder/decoder variants found in
the repository, together with proofs of the specified properties.

Byte sequences are modelled as `List Nat` (a `Uint8Array` entry is a natural
number below 256).  While-loops are modelled by fuel-indexed structural
recursion; every loop of the source consumes at least one input byte per
iteration, so fuel equal to the input length is always sufficient (this is
proved where needed via fuel-stability lemmas).  Code that throws a
`PackBitsError` is modelled with `Option`/`Except`: `none`/`.error` is the
thrown exception, so a failing call returns no output at all, matching the
all-or-nothing behaviour of exceptions.
-/

set_option maxRecDepth 8000

/-- `MAX_RUN_LENGTH` from the source. -/
def MAX_RUN_LENGTH : Nat := 128

/-- Length of the maximal prefix of `l` whose elements all equal `b`.
Used to model the repeat-scanning loops
(`while data[readIndex + k] === data[readIndex]`). -/
def runLen (b : Nat) : List Nat → Nat
  | [] => 0
  | c :: t => if c = b then runLen b t + 1 else 0

/-- Length of the maximal prefix collectible as literal bytes: position `i` is
collected while `i == len - 1 || data[i] != data[i+1]` (the condition of the
literal-collection loop in `/src/mod.ts`). -/
def litLen : List Nat → Nat
  | [] => 0
  | [_] => 1
  | a :: b :: t => if a = b then 0 else litLen (b :: t) + 1

namespace ModTs

/-!
## `/src/mod.ts` — the `src/` implementation

`compress` scans the input; at each position it measures the maximal run of
equal bytes (capped at 128).  A run of length `> 1` is emitted as a replicate
run `[257 - runLength, byte]`; otherwise literal bytes are collected (while no
two adjacent bytes are equal, capped at 128) and emitted as
`[literalCount - 1, ...bytes]`.
-/

/-- The `while (readIndex < data.length)` loop of `compress`, with fuel.
Each iteration consumes at least one byte, so `fuel = data.length` suffices. -/
def compressGo : Nat → List Nat → List Nat
  | _, [] => []
  | 0, _ :: _ => []
  | fuel + 1, b :: t =>
      let r := min (runLen b t + 1) MAX_RUN_LENGTH
      if 1 < r then
        (257 - r) :: b :: compressGo fuel ((b :: t).drop r)
      else
        let k := min (litLen (b :: t)) MAX_RUN_LENGTH
        (k - 1) :: ((b :: t).take k ++ compressGo fuel ((b :: t).drop k))

/-- `compress` from `/src/mod.ts`. -/
def compress (data : List Nat) : List Nat :=
  compressGo data.length data

/-- The scanning loop of `calculateDecompressedSize` from `/src/mod.ts`.
Immediately after reading a header byte it throws (`none`) when no byte
follows (`if (index >= data.length) throw`), then dispatches on the header:
literal headers additionally require `header + 1` payload bytes. -/
def calcSizeGo : Nat → List Nat → Option Nat
  | _, [] => some 0
  | 0, _ :: _ => none
  | fuel + 1, n :: rest =>
      if rest = [] then none
      else if n < MAX_RUN_LENGTH then
        if rest.length < n + 1 then none
        else (calcSizeGo fuel (rest.drop (n + 1))).map (fun s => s + (n + 1))
      else if MAX_RUN_LENGTH < n then
        (calcSizeGo fuel (rest.drop 1)).map (fun s => s + (257 - n))
      else calcSizeGo fuel rest

/-- `calculateDecompressedSize` from `/src/mod.ts`; `none` models the thrown
`PackBitsError`. -/
def calculateDecompressedSize (data : List Nat) : Option Nat :=
  calcSizeGo data.length data

/-- The expansion loop of `decompress` from `/src/mod.ts`.  It runs only after
`calculateDecompressedSize` succeeded, so all payload reads are in bounds. -/
def expandGo : Nat → List Nat → List Nat
  | _, [] => []
  | 0, _ :: _ => []
  | fuel + 1, n :: rest =>
      if n < MAX_RUN_LENGTH then
        rest.take (n + 1) ++ expandGo fuel (rest.drop (n + 1))
      else if MAX_RUN_LENGTH < n then
        match rest with
        | [] => []
        | b :: rest2 => List.replicate (257 - n) b ++ expandGo fuel rest2
      else expandGo fuel rest

/-- `decompress` from `/src/mod.ts`: validate (computing the exact output
size), then expand; a thrown error (`none`) produces no output at all. -/
def decompress (data : List Nat) : Option (List Nat) :=
  match calculateDecompressedSize data with
  | none => none
  | some _ => some (expandGo data.length data)

end ModTs


namespace Ctx

/-!
## The context-aware encoder (first `compress` of the unnamed source file)

This variant collects literal bytes while absorbing short repeat runs: at each
position it measures the repeat run (capped at 128) and breaks out of the
literal-collection loop only when `repeatCount >= 3`, or when
`repeatCount == 2` with no literal run open; otherwise it absorbs
`min(repeatCount, 128 - literalCount)` bytes into the open literal run.
-/

/-- The inner literal-collection loop
(`while (readIndex < data.length && literalCount < MAX_RUN_LENGTH)`).
Returns the total literal count and the remaining input.  Each iteration
absorbs at least one byte, so `fuel = l.length` is always sufficient. -/
def ctxInner : Nat → Nat → List Nat → Nat × List Nat
  | 0, litCount, l => (litCount, l)
  | fuel + 1, litCount, l =>
      match l with
      | [] => (litCount, [])
      | b :: t =>
        if litCount < MAX_RUN_LENGTH then
          let rc := min (runLen b t + 1) MAX_RUN_LENGTH
          if 3 ≤ rc ∨ (rc = 2 ∧ litCount = 0) then (litCount, b :: t)
          else
            let a := min rc (MAX_RUN_LENGTH - litCount)
            ctxInner fuel (litCount + a) ((b :: t).drop a)
        else (litCount, b :: t)

/-- The outer `while (readIndex < data.length)` loop of the context-aware
`compress`: collect (and flush) a literal run, then — when the literal loop
was left by the repeat-run break (input remains and the literal did not hit
the 128 cap) — emit a replicate run. -/
def compressGo : Nat → List Nat → List Nat
  | _, [] => []
  | 0, _ :: _ => []
  | fuel + 1, b0 :: t0 =>
      let l := b0 :: t0
      let p := ctxInner l.length 0 l
      let k := p.1
      let lit := if 0 < k then (k - 1) :: l.take k else []
      match p.2 with
      | [] => lit
      | b :: t =>
          if k < MAX_RUN_LENGTH then
            let rc := min (runLen b t + 1) MAX_RUN_LENGTH
            lit ++ (257 - rc) :: b :: compressGo fuel ((b :: t).drop rc)
          else lit ++ compressGo fuel (b :: t)

/-- The context-aware `compress` (canonical encoder of the specification). -/
def compress (data : List Nat) : List Nat :=
  compressGo data.length data

end Ctx

namespace V2

/-!
## The newer implementation (second file of the unnamed source):
its decoder, and its stack-based `compress` with an optional caller-supplied
scratch buffer.
-/

/-- The scanning loop of `calculateSizeDecompressed`.  Unlike the `/src/mod.ts`
variant, the end-of-input checks live inside the replicate/literal branches, so
a no-op header (128) is accepted anywhere, including as the final byte. -/
def calcSizeGo : Nat → List Nat → Option Nat
  | _, [] => some 0
  | 0, _ :: _ => none
  | fuel + 1, n :: rest =>
      if MAX_RUN_LENGTH < n then
        if rest = [] then none
        else (calcSizeGo fuel (rest.drop 1)).map (fun s => s + (257 - n))
      else if n < MAX_RUN_LENGTH then
        if rest.length < n + 1 then none
        else (calcSizeGo fuel (rest.drop (n + 1))).map (fun s => s + (n + 1))
      else calcSizeGo fuel rest

/-- `calculateSizeDecompressed`; `none` models the thrown `PackBitsError`. -/
def calculateSizeDecompressed (data : List Nat) : Option Nat :=
  calcSizeGo data.length data

/-- The expansion loop of the newer `decompress` (the `COPY_THRESHOLD` fast
path has identical semantics to the byte-by-byte path, so both are modelled
by `take`/`replicate`). -/
def expandGo : Nat → List Nat → List Nat
  | _, [] => []
  | 0, _ :: _ => []
  | fuel + 1, n :: rest =>
      if MAX_RUN_LENGTH < n then
        match rest with
        | [] => []
        | b :: rest2 => List.replicate (257 - n) b ++ expandGo fuel rest2
      else if n < MAX_RUN_LENGTH then
        rest.take (n + 1) ++ expandGo fuel (rest.drop (n + 1))
      else expandGo fuel rest

/-- The newer `decompress`: validate, then expand. -/
def decompress (data : List Nat) : Option (List Nat) :=
  match calculateSizeDecompressed data with
  | none => none
  | some _ => some (expandGo data.length data)

/-- The error thrown by the stack-based `compress` when the supplied scratch
buffer is undersized. -/
inductive PBError where
  | bufferTooSmall
deriving DecidableEq

/-- `⌈1.5 × n⌉`, the minimum scratch-buffer size (`Math.ceil(1.5*data.length)`). -/
def ceil15 (n : Nat) : Nat := (3 * n + 1) / 2

/-- Write at a `Nat` index; out-of-bounds writes are silently dropped, like
writes past the end of a JS `Uint8Array` (`List.set` is a no-op out of
bounds). -/
def bset (buf : List Nat) (i : Nat) (v : Nat) : List Nat := buf.set i v

/-- Write at an `Int` index (the stack pointer `iStack` can in principle go
negative; JS drops such writes). -/
def bsetI (buf : List Nat) (i : Int) (v : Nat) : List Nat :=
  if 0 ≤ i then buf.set i.toNat v else buf

/-- Read at an `Int` index, 0 out of bounds. -/
def bgetI (buf : List Nat) (i : Int) : Nat :=
  if 0 ≤ i then buf.getD i.toNat 0 else 0

/-- Mutable state of the run-collection pass of the stack-based `compress`:
read cursor, stack pointer, `countLastLiteral`, and the scratch buffer. -/
structure St where
  iRead : Nat
  iStack : Int
  cll : Nat
  buf : List Nat

/-- The `merge R2 into previous L, else push` snippet of the replicate-run
loop (it appears twice verbatim in the source). -/
def closeRep (st : St) (n : Nat) : St :=
  if n = 255 ∧ 0 < st.cll ∧ st.cll + 2 ≤ 128 then
    { st with cll := st.cll + 2, buf := bsetI st.buf (st.iStack + 1) (st.cll + 2 - 1) }
  else
    { st with buf := bsetI st.buf st.iStack n, iStack := st.iStack - 1, cll := 0 }

/-- The `merge L into previous L, else push` snippet used when a literal run
ends at end-of-input or at the 128-byte cap (`n` is the literal's header). -/
def closeLitEnd (st : St) (n : Nat) : St :=
  if 0 < st.cll ∧ st.cll + n + 1 ≤ 128 then
    { st with cll := st.cll + n + 1, buf := bsetI st.buf (st.iStack + 1) (st.cll + n + 1 - 1) }
  else
    { st with buf := bsetI st.buf st.iStack n, iStack := st.iStack - 1, cll := n + 1 }

/-- The close-literal snippet used when a repeat pair interrupts a literal
run (the pair is excluded, so the header is `n - 1`). -/
def closeLitMid (st : St) (n : Nat) : St :=
  if 0 < st.cll ∧ st.cll + n ≤ 128 then
    { st with cll := st.cll + n, buf := bsetI st.buf (st.iStack + 1) (st.cll + n - 1) }
  else
    { st with buf := bsetI st.buf st.iStack (n - 1), iStack := st.iStack - 1, cll := n }

/-- Result of the replicate-run `do … while` loop: `break loop`, the
`gotoBreakAfterAnchor` jump (anchor already holds the next byte), or the
natural exit (`n` reached 129). -/
inductive RepRes where
  | breakLoop (st : St)
  | gotoAfter (anchor : Nat) (st : St)
  | natural (st : St)

/-- Result of the literal-run `do … while` loop: `break loop`,
`continue loop` (with the new anchor/current pair), or the natural exit
(`n` reached 127). -/
inductive LitRes where
  | breakLoop (st : St)
  | contLoop (anchor crnt : Nat) (st : St)
  | natural (st : St)

/-- The replicate-run `do { … } while (n > 129)` loop.  `n` descends from 255,
so 130 fuel is always enough. -/
def repLoop (data : List Nat) (anchor : Nat) : Nat → Nat → St → RepRes
  | 0, _, st => .breakLoop st
  | fuel + 1, n, st =>
      if data.length ≤ st.iRead then .breakLoop (closeRep st n)
      else
        let c := data.getD st.iRead 0
        let st' : St := { st with iRead := st.iRead + 1 }
        if c ≠ anchor then .gotoAfter c (closeRep st' n)
        else if 129 < n - 1 then repLoop data anchor fuel (n - 1) st'
        else .natural { st' with buf := bsetI st'.buf st'.iStack (n - 1),
                                 iStack := st'.iStack - 1, cll := 0 }

/-- The literal-run `do { … } while (n < 127)` loop.  `n` ascends from 1, so
130 fuel is always enough. -/
def litLoop (data : List Nat) : Nat → Nat → Nat → St → LitRes
  | 0, _, _, st => .breakLoop st
  | fuel + 1, n, prev, st =>
      if data.length ≤ st.iRead then .breakLoop (closeLitEnd st n)
      else
        let c := data.getD st.iRead 0
        let st' : St := { st with iRead := st.iRead + 1 }
        if c = prev then .contLoop prev c (closeLitMid st' n)
        else if n + 1 < 127 then litLoop data fuel (n + 1) c st'
        else .natural (closeLitEnd st' (n + 1))

/-- Control position inside the labelled run-collection loop: the `loop:`
head, the `afterAnchor` point, or the fall-through after a natural
replicate-loop exit. -/
inductive P1Mode where
  | atLoop (anchor crnt : Nat)
  | afterAnchorM (anchor : Nat)
  | fallthroughM

/-- The labelled `loop: while (true)` run-collection pass.  Every cycle
consumes at least one input byte, so `2 * data.length + 4` fuel suffices. -/
def p1 (data : List Nat) : Nat → P1Mode → St → St
  | 0, _, st => st
  | fuel + 1, .atLoop anchor crnt, st =>
      if anchor = crnt then
        match repLoop data anchor 130 255 st with
        | .breakLoop st' => st'
        | .gotoAfter a st' => p1 data fuel (.afterAnchorM a) st'
        | .natural st' => p1 data fuel .fallthroughM st'
      else
        match litLoop data 130 1 crnt st with
        | .breakLoop st' => st'
        | .contLoop a c st' => p1 data fuel (.atLoop a c) st'
        | .natural st' => p1 data fuel .fallthroughM st'
  | fuel + 1, .fallthroughM, st =>
      if data.length ≤ st.iRead then st
      else p1 data fuel (.afterAnchorM (data.getD st.iRead 0))
             { st with iRead := st.iRead + 1 }
  | fuel + 1, .afterAnchorM anchor, st =>
      if data.length ≤ st.iRead then
        if 0 < st.cll ∧ st.cll + 1 ≤ 128 then
          { st with cll := st.cll + 1, buf := bsetI st.buf (st.iStack + 1) (st.cll + 1 - 1) }
        else { st with buf := bsetI st.buf st.iStack 0, iStack := st.iStack - 1 }
      else p1 data fuel (.atLoop anchor (data.getD st.iRead 0))
             { st with iRead := st.iRead + 1 }

/-- Write the given bytes at consecutive positions. -/
def writeRange (buf : List Nat) (i : Nat) : List Nat → List Nat
  | [] => buf
  | v :: vs => writeRange (buf.set i v) (i + 1) vs

/-- The `Write runs` pass: pop stacked run headers from the top of the buffer
and serialize headers plus payload into its front.  Returns the buffer and
`iWrite`.  One stack entry per iteration, so `buf.length + 1` fuel suffices. -/
def p2 (data : List Nat) : Nat → Int → Int → Nat → Nat → List Nat → List Nat × Nat
  | 0, _, _, _, iWrite, buf => (buf, iWrite)
  | fuel + 1, isr, lim, iRead, iWrite, buf =>
      if lim < isr then
        let n := bgetI buf isr
        if 128 < n then
          p2 data fuel (isr - 1) lim (iRead + (257 - n)) (iWrite + 2)
            (bset (bset buf iWrite n) (iWrite + 1) (data.getD iRead 0))
        else if n < 128 then
          p2 data fuel (isr - 1) lim (iRead + (n + 1)) (iWrite + 1 + (n + 1))
            (writeRange (bset buf iWrite n) (iWrite + 1) ((data.drop iRead).take (n + 1)))
        else p2 data fuel (isr - 1) lim iRead iWrite buf
      else (buf, iWrite)

/-- Body of the stack-based `compress`, run after the buffer-size check. -/
def compressBody (data : List Nat) (buf : List Nat) : List Nat :=
  if data.length = 0 then []
  else if data.length = 1 then ((buf.set 0 0).set 1 (data.getD 0 0)).take 2
  else
    let st0 : St := ⟨2, (buf.length : Int) - 1, 0, buf⟩
    let st := p1 data (2 * data.length + 4) (.atLoop (data.getD 0 0) (data.getD 1 0)) st0
    let pr := p2 data (st.buf.length + 1) ((buf.length : Int) - 1) st.iStack 0 0 st.buf
    pr.1.take pr.2

/-- The stack-based `compress(data, buffer?)`.  When a scratch buffer is
supplied it must hold at least `⌈1.5 × data.length⌉` bytes, otherwise a
`PackBitsError` (modelled as `.error .bufferTooSmall`) is thrown; when none
is supplied a fresh buffer of exactly that size is allocated. -/
def compress (data : List Nat) (buffer : Option (List Nat)) :
    Except PBError (List Nat) :=
  match buffer with
  | none => .ok (compressBody data (List.replicate (ceil15 data.length) 0))
  | some buf =>
      if buf.length < ceil15 data.length then .error .bufferTooSmall
      else .ok (compressBody data buf)

end V2

namespace SpecWord

/-!
## Predicates phrased after the specification's words

These are *not* translations of repository code; they follow the claims'
phrasing ("a header declares a run whose payload bytes are not fully
present") so that code behaviour can be compared against them.
-/

/-- Every header reached by the scan has its declared payload fully present:
a literal header `< 128` is followed by at least `header + 1` bytes, a
replicate header `> 128` by at least one byte; a no-op header (128) needs no
payload. -/
def payloadsPresentGo : Nat → List Nat → Bool
  | _, [] => true
  | 0, _ :: _ => false
  | fuel + 1, n :: rest =>
      if n < 128 then
        decide (n + 1 ≤ rest.length) && payloadsPresentGo fuel (rest.drop (n + 1))
      else if 128 < n then
        decide (1 ≤ rest.length) && payloadsPresentGo fuel (rest.drop 1)
      else payloadsPresentGo fuel rest

/-- Top-level payload-presence predicate. -/
def payloadsPresent (l : List Nat) : Bool := payloadsPresentGo l.length l

/-- Every header reached by the scan is a legal encoder header: in `[0, 127]`
(literal) or in `[129, 255]` (replicate) — in particular never 128. -/
def headersOkGo : Nat → List Nat → Bool
  | _, [] => true
  | 0, _ :: _ => false
  | fuel + 1, n :: rest =>
      if n < 128 then headersOkGo fuel (rest.drop (n + 1))
      else if 129 ≤ n ∧ n ≤ 255 then headersOkGo fuel (rest.drop 1)
      else false

/-- Top-level header-legality predicate. -/
def headersOk (l : List Nat) : Bool := headersOkGo l.length l

end SpecWord

namespace Blocks

/-!
## Block decomposition and abstract cost models

`blocks` splits a byte sequence into maximal runs of equal bytes
(value × count).  `modtsCost`/`ctxCost` compute, per block, the output size
of the `/src/mod.ts` encoder and of the context-aware encoder on inputs short
enough that the 128-byte caps never bind (length ≤ 128); the boolean tracks
whether a literal run is currently open.  These are proof devices for
comparing the two encoders, not translations of repository code.
-/

/-- Maximal-run decomposition of a byte sequence. -/
def blocks : List Nat → List (Nat × Nat)
  | [] => []
  | b :: t =>
      match blocks t with
      | [] => [(b, 1)]
      | (c, k) :: bs => if b = c then (b, k + 1) :: bs else (b, 1) :: (c, k) :: bs

/-- Concatenate a block list back into a byte sequence. -/
def joinB : List (Nat × Nat) → List Nat
  | [] => []
  | (v, c) :: bs => List.replicate c v ++ joinB bs

/-- Total byte count of a block list. -/
def sumB : List (Nat × Nat) → Nat
  | [] => 0
  | (_, c) :: bs => c + sumB bs

/-- Well-formed block list: adjacent blocks have distinct values and every
count is positive. -/
def wfB (bs : List (Nat × Nat)) : Prop :=
  List.Chain' (fun p q => p.1 ≠ q.1) bs ∧ ∀ p ∈ bs, 1 ≤ p.2

/-- Output size of the `/src/mod.ts` encoder per block (no caps): any block
of length ≥ 2 becomes a 2-byte replicate run; blocks of length 1 extend the
open literal run (opening costs the header byte). -/
def modtsCost : Bool → List (Nat × Nat) → Nat
  | _, [] => 0
  | isOpen, (_, c) :: bs =>
      if 2 ≤ c then 2 + modtsCost false bs
      else (cond isOpen 1 2) + modtsCost true bs

/-- Output size of the context-aware encoder per block (no caps): blocks of
length ≥ 3 become replicate runs; a length-2 block is absorbed into an open
literal run but becomes a replicate run when none is open; length-1 blocks
extend the literal run. -/
def ctxCost : Bool → List (Nat × Nat) → Nat
  | _, [] => 0
  | isOpen, (_, c) :: bs =>
      if 3 ≤ c then 2 + ctxCost false bs
      else if c = 2 then
        cond isOpen (2 + ctxCost true bs) (2 + ctxCost false bs)
      else (cond isOpen 1 2) + ctxCost true bs

end Blocks

/-! ## Basic facts about `runLen` and `litLen` -/

theorem runLen_le (b : Nat) (t : List Nat) : runLen b t ≤ t.length := by
  induction t with
  | nil => simp [runLen]
  | cons c t ih =>
    simp only [runLen, List.length_cons]
    split
    · exact Nat.succ_le_succ ih
    · exact Nat.zero_le _

theorem litLen_le (l : List Nat) : litLen l ≤ l.length := by
  induction l with
  | nil => simp [litLen]
  | cons a t ih =>
    cases t with
    | nil => simp [litLen]
    | cons b t' =>
      simp only [litLen, List.length_cons]
      simp only [List.length_cons] at ih
      split
      · omega
      · omega

theorem litLen_pos (a : Nat) (t : List Nat) (h : runLen a t = 0) : 0 < litLen (a :: t) := by
  cases t with
  | nil => simp [litLen]
  | cons c t' =>
    simp only [runLen] at h
    by_cases hc : c = a
    · rw [if_pos hc] at h
      omega
    · simp only [litLen]
      rw [if_neg (fun hac => hc hac.symm)]
      omega

theorem take_runLen_replicate (b : Nat) (t : List Nat) :
    ∀ k : Nat, k ≤ runLen b t → t.take k = List.replicate k b := by
  induction t with
  | nil =>
    intro k hk
    simp only [runLen] at hk
    have : k = 0 := Nat.le_zero.mp hk
    simp [this]
  | cons c t ih =>
    intro k hk
    simp only [runLen] at hk
    by_cases hc : c = b
    · rw [if_pos hc] at hk
      cases k with
      | zero => simp
      | succ k' =>
        subst hc
        simp only [List.take_succ_cons, List.replicate_succ]
        rw [ih k' (by omega)]
    · rw [if_neg hc] at hk
      have : k = 0 := Nat.le_zero.mp hk
      simp [this]

theorem take_replicate_of_le_runLen (b : Nat) (t : List Nat) (k : Nat)
    (h : k ≤ runLen b t + 1) : (b :: t).take k = List.replicate k b := by
  cases k with
  | zero => simp
  | succ k' =>
    simp only [List.take_succ_cons, List.replicate_succ]
    exact congrArg (b :: ·) (take_runLen_replicate b t k' (by omega))

namespace ModTs

/-! ### Fuel stability: any fuel of at least the input length gives the same
result, since every loop iteration consumes at least one input byte. -/

theorem compressGo_stable : ∀ (f₁ f₂ : Nat) (l : List Nat), l.length ≤ f₁ → l.length ≤ f₂ →
    compressGo f₁ l = compressGo f₂ l := by
  intro f₁
  induction f₁ with
  | zero =>
    intro f₂ l h₁ _
    have : l = [] := List.length_eq_zero.mp (Nat.le_zero.mp h₁)
    subst this
    cases f₂ <;> rfl
  | succ f ih =>
    intro f₂ l h₁ h₂
    cases l with
    | nil => cases f₂ <;> rfl
    | cons b t =>
      obtain ⟨g, rfl⟩ : ∃ g, f₂ = g + 1 := by
        cases f₂ with
        | zero => simp at h₂
        | succ g => exact ⟨g, rfl⟩
      simp only [compressGo]
      have hlen : (b :: t).length = t.length + 1 := rfl
      by_cases hr : 1 < min (runLen b t + 1) MAX_RUN_LENGTH
      · rw [if_pos hr, if_pos hr]
        have hd : ((b :: t).drop (min (runLen b t + 1) MAX_RUN_LENGTH)).length ≤ t.length := by
          simp only [List.length_drop, hlen]
          omega
        congr 2
        exact ih g _ (by omega) (by omega)
      · rw [if_neg hr, if_neg hr]
        have hk : 0 < min (litLen (b :: t)) MAX_RUN_LENGTH := by
          have hr1 : runLen b t = 0 := by
            have : min (runLen b t + 1) MAX_RUN_LENGTH ≤ 1 := by omega
            have h128 : MAX_RUN_LENGTH = 128 := rfl
            omega
          have := litLen_pos b t hr1
          have h128 : MAX_RUN_LENGTH = 128 := rfl
          omega
        have hd : ((b :: t).drop (min (litLen (b :: t)) MAX_RUN_LENGTH)).length ≤ t.length := by
          simp only [List.length_drop, hlen]
          omega
        congr 2
        exact ih g _ (by omega) (by omega)

theorem calcSizeGo_stable : ∀ (f₁ f₂ : Nat) (l : List Nat), l.length ≤ f₁ → l.length ≤ f₂ →
    calcSizeGo f₁ l = calcSizeGo f₂ l := by
  intro f₁
  induction f₁ with
  | zero =>
    intro f₂ l h₁ _
    have : l = [] := List.length_eq_zero.mp (Nat.le_zero.mp h₁)
    subst this
    cases f₂ <;> rfl
  | succ f ih =>
    intro f₂ l h₁ h₂
    cases l with
    | nil => cases f₂ <;> rfl
    | cons n rest =>
      obtain ⟨g, rfl⟩ : ∃ g, f₂ = g + 1 := by
        cases f₂ with
        | zero => simp at h₂
        | succ g => exact ⟨g, rfl⟩
      simp only [calcSizeGo]
      simp only [List.length_cons] at h₁ h₂
      by_cases h0 : rest = []
      · rw [if_pos h0, if_pos h0]
      rw [if_neg h0, if_neg h0]
      by_cases hlit : n < MAX_RUN_LENGTH
      · rw [if_pos hlit, if_pos hlit]
        by_cases hov : rest.length < n + 1
        · rw [if_pos hov, if_pos hov]
        · rw [if_neg hov, if_neg hov]
          have hd : (rest.drop (n + 1)).length ≤ rest.length - 1 := by
            simp only [List.length_drop]
            omega
          rw [ih g _ (by omega) (by omega)]
      · rw [if_neg hlit, if_neg hlit]
        by_cases hrep : MAX_RUN_LENGTH < n
        · rw [if_pos hrep, if_pos hrep]
          have hd : (rest.drop 1).length ≤ rest.length - 1 := by
            simp only [List.length_drop]
            omega
          rw [ih g _ (by omega) (by omega)]
        · rw [if_neg hrep, if_neg hrep]
          exact ih g _ (by omega) (by omega)

theorem expandGo_stable : ∀ (f₁ f₂ : Nat) (l : List Nat), l.length ≤ f₁ → l.length ≤ f₂ →
    expandGo f₁ l = expandGo f₂ l := by
  intro f₁
  induction f₁ with
  | zero =>
    intro f₂ l h₁ _
    have : l = [] := List.length_eq_zero.mp (Nat.le_zero.mp h₁)
    subst this
    cases f₂ <;> rfl
  | succ f ih =>
    intro f₂ l h₁ h₂
    cases l with
    | nil => cases f₂ <;> rfl
    | cons n rest =>
      obtain ⟨g, rfl⟩ : ∃ g, f₂ = g + 1 := by
        cases f₂ with
        | zero => simp at h₂
        | succ g => exact ⟨g, rfl⟩
      simp only [expandGo]
      simp only [List.length_cons] at h₁ h₂
      by_cases hlit : n < MAX_RUN_LENGTH
      · rw [if_pos hlit, if_pos hlit]
        have hd : (rest.drop (n + 1)).length ≤ rest.length := by
          simp only [List.length_drop]
          omega
        rw [ih g _ (by omega) (by omega)]
      · rw [if_neg hlit, if_neg hlit]
        by_cases hrep : MAX_RUN_LENGTH < n
        · rw [if_pos hrep, if_pos hrep]
          cases rest with
          | nil => rfl
          | cons b rest2 =>
            simp only [List.length_cons] at h₁ h₂
            show List.replicate (257 - n) b ++ expandGo f rest2
                = List.replicate (257 - n) b ++ expandGo g rest2
            rw [ih g rest2 (by omega) (by omega)]
        · rw [if_neg hrep, if_neg hrep]
          exact ih g _ (by omega) (by omega)

/-! ### Round-trip: decoding inverts encoding -/

theorem MAX_eq : MAX_RUN_LENGTH = 128 := rfl

theorem roundtrip_core : ∀ (fuel : Nat) (l : List Nat), l.length ≤ fuel →
    calcSizeGo (compress l).length (compress l) = some l.length ∧
    expandGo (compress l).length (compress l) = l := by
  intro fuel
  induction fuel with
  | zero =>
    intro l h
    have : l = [] := List.length_eq_zero.mp (Nat.le_zero.mp h)
    subst this
    exact ⟨rfl, rfl⟩
  | succ f ih =>
    intro l h
    cases l with
    | nil => exact ⟨rfl, rfl⟩
    | cons b t =>
      simp only [List.length_cons] at h
      by_cases hr : 1 < min (runLen b t + 1) MAX_RUN_LENGTH
      · -- replicate-run branch
        set r := min (runLen b t + 1) MAX_RUN_LENGTH with hr_def
        have hr128 : r ≤ 128 := by rw [hr_def, MAX_eq]; omega
        have hrun : r ≤ runLen b t + 1 := Nat.min_le_left _ _
        have hrlen : r ≤ t.length + 1 :=
          le_trans hrun (Nat.succ_le_succ (runLen_le b t))
        have hdlen : ((b :: t).drop r).length = t.length + 1 - r := by
          simp [List.length_drop]
        have hcomp : compress (b :: t) = (257 - r) :: b :: compress ((b :: t).drop r) := by
          simp only [compress, List.length_cons, compressGo, ← hr_def]
          rw [if_pos hr]
          congr 1
          congr 1
          exact compressGo_stable t.length ((b :: t).drop r).length _
            (by omega) (le_refl _)
        obtain ⟨ihc, ihe⟩ := ih ((b :: t).drop r) (by omega)
        set out := compress ((b :: t).drop r) with hout
        rw [hcomp]
        constructor
        · -- size computation
          simp only [List.length_cons, calcSizeGo]
          rw [if_neg (List.cons_ne_nil b out)]
          rw [if_neg (by rw [MAX_eq]; omega : ¬ 257 - r < MAX_RUN_LENGTH)]
          rw [if_pos (by rw [MAX_eq]; omega : MAX_RUN_LENGTH < 257 - r)]
          rw [List.drop_succ_cons, List.drop_zero]
          rw [calcSizeGo_stable (out.length + 1) out.length out (by omega) (le_refl _)]
          rw [ihc, hdlen]
          simp only [Option.map_some']
          congr 1
          omega
        · -- expansion
          simp only [List.length_cons, expandGo]
          rw [if_neg (by rw [MAX_eq]; omega : ¬ 257 - r < MAX_RUN_LENGTH)]
          rw [if_pos (by rw [MAX_eq]; omega : MAX_RUN_LENGTH < 257 - r)]
          show List.replicate (257 - (257 - r)) b ++ expandGo (out.length + 1) out = b :: t
          rw [expandGo_stable (out.length + 1) out.length out (by omega) (le_refl _)]
          rw [ihe]
          rw [(by omega : 257 - (257 - r) = r)]
          rw [← take_replicate_of_le_runLen b t r hrun]
          exact List.take_append_drop r (b :: t)
      · -- literal-run branch
        have hrun0 : runLen b t = 0 := by
          rw [MAX_eq] at hr
          omega
        set k := min (litLen (b :: t)) MAX_RUN_LENGTH with hk_def
        have hk128 : k ≤ 128 := by rw [hk_def, MAX_eq]; omega
        have hkpos : 0 < k := by
          have h1 := litLen_pos b t hrun0
          rw [hk_def, MAX_eq]
          omega
        have hklit : k ≤ litLen (b :: t) := Nat.min_le_left _ _
        have hklen : k ≤ t.length + 1 := by
          have := litLen_le (b :: t)
          simp only [List.length_cons] at this
          omega
        have htk : ((b :: t).take k).length = k := by
          simp only [List.length_take, List.length_cons]
          omega
        have hdlen : ((b :: t).drop k).length = t.length + 1 - k := by
          simp [List.length_drop]
        have hcomp : compress (b :: t)
            = (k - 1) :: ((b :: t).take k ++ compress ((b :: t).drop k)) := by
          simp only [compress, List.length_cons, compressGo, ← hk_def]
          rw [if_neg hr]
          congr 2
          exact compressGo_stable t.length ((b :: t).drop k).length _
            (by omega) (le_refl _)
        obtain ⟨ihc, ihe⟩ := ih ((b :: t).drop k) (by omega)
        set out := compress ((b :: t).drop k) with hout
        rw [hcomp]
        have hrest_len : ((b :: t).take k ++ out).length = k + out.length := by
          simp [htk]
        have hrest_ne : (b :: t).take k ++ out ≠ [] := by
          intro hnil
          have := congrArg List.length hnil
          simp [hrest_len] at this
          omega
        have hdrop_app : ((b :: t).take k ++ out).drop k = out :=
          List.drop_left' htk
        have htake_app : ((b :: t).take k ++ out).take k = (b :: t).take k :=
          List.take_left' htk
        constructor
        · -- size computation
          simp only [List.length_cons, calcSizeGo, hrest_len]
          rw [if_neg hrest_ne]
          rw [if_pos (by rw [MAX_eq]; omega : k - 1 < MAX_RUN_LENGTH)]
          rw [if_neg (by omega : ¬ k + out.length < k - 1 + 1)]
          rw [(by omega : k - 1 + 1 = k), hdrop_app]
          rw [calcSizeGo_stable (k + out.length) out.length out (by omega) (le_refl _)]
          rw [ihc, hdlen]
          simp only [Option.map_some']
          congr 1
          omega
        · -- expansion
          simp only [List.length_cons, expandGo, hrest_len]
          rw [if_pos (by rw [MAX_eq]; omega : k - 1 < MAX_RUN_LENGTH)]
          rw [(by omega : k - 1 + 1 = k), hdrop_app, htake_app]
          rw [expandGo_stable (k + out.length) out.length out (by omega) (le_refl _)]
          rw [ihe]
          exact List.take_append_drop k (b :: t)

end ModTs


-- sanity checks on the concrete examples from the source's doc comments/tests
example : ModTs.compress [0xAA, 0xAA, 0xAA, 0x80, 0x00] = [0xFE, 0xAA, 0x01, 0x80, 0x00] := by
  decide
example : ModTs.decompress [0xFE, 0xAA, 0x01, 0x80, 0x00] = some [0xAA, 0xAA, 0xAA, 0x80, 0x00] := by
  decide
example : ModTs.compress [] = [] := by decide
example : ModTs.compress [0xAA] = [0x00, 0xAA] := by decide
example : ModTs.compress (List.replicate 200 0xAA) = [0x81, 0xAA, 0xB9, 0xAA] := by decide
example : ModTs.decompress [0x7F] = none := by decide
example : ModTs.decompress [0xFF] = none := by decide
example : ModTs.compress [0x54, 0xAA, 0xAA, 0x80, 0x00]
    = [0x00, 0x54, 0xFF, 0xAA, 0x01, 0x80, 0x00] := by decide
example : Ctx.compress [0x54, 0xAA, 0xAA, 0x80, 0x00]
    = [0x04, 0x54, 0xAA, 0xAA, 0x80, 0x00] := by decide
example : Ctx.compress [0xAA, 0xAA, 0xAA, 0x80, 0x00, 0x2A, 0xAA, 0xAA, 0xAA, 0xAA,
      0x80, 0x00, 0x2A, 0x22, 0xAA, 0xAA, 0xAA, 0xAA, 0xAA, 0xAA, 0xAA, 0xAA, 0xAA, 0xAA]
    = [0xFE, 0xAA, 0x02, 0x80, 0x00, 0x2A, 0xFD, 0xAA, 0x03, 0x80, 0x00, 0x2A, 0x22, 0xF7, 0xAA] := by
  decide
example : Ctx.compress [0x10, 0x20, 0x30, 0x30, 0x40, 0x40, 0x50, 0x50, 0x60, 0x70]
    = [0x09, 0x10, 0x20, 0x30, 0x30, 0x40, 0x40, 0x50, 0x50, 0x60, 0x70] := by decide
example : Ctx.compress [] = [] := by decide
example : Ctx.compress [0xAA] = [0x00, 0xAA] := by decide
example : Ctx.compress (List.replicate 200 0xAA) = [0x81, 0xAA, 0xB9, 0xAA] := by decide
-- the cap-split phenomenon: 127 pairwise-distinct bytes followed by a 2-byte repeat
example : (Ctx.compress (List.range 127 ++ [200, 200])).length = 131 := by decide
example : (ModTs.compress (List.range 127 ++ [200, 200])).length = 130 := by decide

/-! ## Step equations for the `/src/mod.ts` encoder -/

theorem ModTs.compress_nil : ModTs.compress [] = [] := rfl

theorem ModTs.compress_cons_rep (b : Nat) (t : List Nat)
    (hr : 1 < min (runLen b t + 1) MAX_RUN_LENGTH) :
    ModTs.compress (b :: t)
      = (257 - min (runLen b t + 1) MAX_RUN_LENGTH) :: b
          :: ModTs.compress ((b :: t).drop (min (runLen b t + 1) MAX_RUN_LENGTH)) := by
  have hrlen : min (runLen b t + 1) MAX_RUN_LENGTH ≤ t.length + 1 :=
    le_trans (Nat.min_le_left _ _) (Nat.succ_le_succ (runLen_le b t))
  simp only [ModTs.compress, List.length_cons, ModTs.compressGo]
  rw [if_pos hr]
  congr 2
  exact ModTs.compressGo_stable t.length ((b :: t).drop _).length _
    (by simp only [List.length_drop, List.length_cons]; omega) (le_refl _)

theorem ModTs.compress_cons_lit (b : Nat) (t : List Nat)
    (hr : ¬ 1 < min (runLen b t + 1) MAX_RUN_LENGTH) :
    ModTs.compress (b :: t)
      = (min (litLen (b :: t)) MAX_RUN_LENGTH - 1)
          :: ((b :: t).take (min (litLen (b :: t)) MAX_RUN_LENGTH)
              ++ ModTs.compress ((b :: t).drop (min (litLen (b :: t)) MAX_RUN_LENGTH))) := by
  have hrun0 : runLen b t = 0 := by rw [ModTs.MAX_eq] at hr; omega
  have hkpos : 0 < min (litLen (b :: t)) MAX_RUN_LENGTH := by
    have h1 := litLen_pos b t hrun0
    rw [ModTs.MAX_eq]
    omega
  simp only [ModTs.compress, List.length_cons, ModTs.compressGo]
  rw [if_neg hr]
  congr 2
  exact ModTs.compressGo_stable t.length ((b :: t).drop _).length _
    (by simp only [List.length_drop, List.length_cons]; omega) (le_refl _)

/-! ## Replicate-input facts -/

theorem runLen_replicate (b : Nat) : ∀ n : Nat, runLen b (List.replicate n b) = n := by
  intro n
  induction n with
  | zero => rfl
  | succ m ih => simp [List.replicate_succ, runLen, ih]

/-! ## The newer decoder validates exactly payload presence -/

theorem V2.calcSizeGo_isSome_eq_payloads : ∀ (fuel : Nat) (l : List Nat),
    (V2.calcSizeGo fuel l).isSome = SpecWord.payloadsPresentGo fuel l := by
  intro fuel
  induction fuel with
  | zero => intro l; cases l <;> rfl
  | succ f ih =>
    intro l
    cases l with
    | nil => rfl
    | cons n rest =>
      simp only [V2.calcSizeGo, SpecWord.payloadsPresentGo]
      by_cases h1 : MAX_RUN_LENGTH < n
      · rw [if_pos h1,
          if_neg (by rw [ModTs.MAX_eq] at h1; omega : ¬ n < 128),
          if_pos (by rw [ModTs.MAX_eq] at h1; omega : 128 < n)]
        cases rest with
        | nil => rfl
        | cons b rest2 =>
          rw [if_neg (List.cons_ne_nil b rest2)]
          have h2 : (decide (1 ≤ (b :: rest2).length)) = true := by
            simp
          rw [h2, Bool.true_and, Option.isSome_map']
          exact ih _
      · rw [if_neg h1]
        by_cases h3 : n < MAX_RUN_LENGTH
        · rw [if_pos h3, if_pos (by rw [ModTs.MAX_eq] at h3; omega : n < 128)]
          by_cases h4 : rest.length < n + 1
          · rw [if_pos h4]
            have : (decide (n + 1 ≤ rest.length)) = false := by
              simp
              omega
            rw [this, Bool.false_and]
            rfl
          · rw [if_neg h4]
            have : (decide (n + 1 ≤ rest.length)) = true := by
              simp
              omega
            rw [this, Bool.true_and, Option.isSome_map']
            exact ih _
        · rw [if_neg h3,
            if_neg (by rw [ModTs.MAX_eq] at h3; omega : ¬ n < 128),
            if_neg (by rw [ModTs.MAX_eq] at h1; omega : ¬ 128 < n)]
          exact ih rest

theorem V2.decompress_none_iff_payloads (l : List Nat) :
    V2.decompress l = none ↔ SpecWord.payloadsPresent l = false := by
  have h := V2.calcSizeGo_isSome_eq_payloads l.length l
  unfold V2.decompress V2.calculateSizeDecompressed SpecWord.payloadsPresent
  cases hc : V2.calcSizeGo l.length l with
  | none =>
    rw [hc] at h
    simp only [Option.isSome_none] at h
    simp [← h]
  | some s =>
    rw [hc] at h
    simp only [Option.isSome_some] at h
    simp [← h]

/-! ## The `/src/mod.ts` encoder emits only legal headers -/

theorem SpecWord.headersOkGo_stable : ∀ (f₁ f₂ : Nat) (l : List Nat),
    l.length ≤ f₁ → l.length ≤ f₂ →
    SpecWord.headersOkGo f₁ l = SpecWord.headersOkGo f₂ l := by
  intro f₁
  induction f₁ with
  | zero =>
    intro f₂ l h₁ _
    have : l = [] := List.length_eq_zero.mp (Nat.le_zero.mp h₁)
    subst this
    cases f₂ <;> rfl
  | succ f ih =>
    intro f₂ l h₁ h₂
    cases l with
    | nil => cases f₂ <;> rfl
    | cons n rest =>
      obtain ⟨g, rfl⟩ : ∃ g, f₂ = g + 1 := by
        cases f₂ with
        | zero => simp at h₂
        | succ g => exact ⟨g, rfl⟩
      simp only [SpecWord.headersOkGo]
      simp only [List.length_cons] at h₁ h₂
      by_cases h3 : n < 128
      · rw [if_pos h3, if_pos h3]
        have hd : (rest.drop (n + 1)).length ≤ rest.length := by
          simp only [List.length_drop]
          omega
        exact ih g _ (by omega) (by omega)
      · rw [if_neg h3, if_neg h3]
        by_cases h4 : 129 ≤ n ∧ n ≤ 255
        · rw [if_pos h4, if_pos h4]
          have hd : (rest.drop 1).length ≤ rest.length := by
            simp only [List.length_drop]
            omega
          exact ih g _ (by omega) (by omega)
        · rw [if_neg h4, if_neg h4]

theorem ModTs.compress_headersOk_core : ∀ (fuel : Nat) (l : List Nat), l.length ≤ fuel →
    SpecWord.headersOkGo (ModTs.compress l).length (ModTs.compress l) = true := by
  intro fuel
  induction fuel with
  | zero =>
    intro l h
    have : l = [] := List.length_eq_zero.mp (Nat.le_zero.mp h)
    subst this
    rfl
  | succ f ih =>
    intro l h
    cases l with
    | nil => rfl
    | cons b t =>
      simp only [List.length_cons] at h
      by_cases hr : 1 < min (runLen b t + 1) MAX_RUN_LENGTH
      · set r := min (runLen b t + 1) MAX_RUN_LENGTH with hr_def
        have hr128 : r ≤ 128 := by rw [hr_def, ModTs.MAX_eq]; omega
        have hrlen : r ≤ t.length + 1 :=
          le_trans (Nat.min_le_left _ _) (Nat.succ_le_succ (runLen_le b t))
        rw [ModTs.compress_cons_rep b t hr]
        set out := ModTs.compress ((b :: t).drop r) with hout
        have hdl : ((b :: t).drop r).length ≤ f := by
          simp only [List.length_drop, List.length_cons]
          omega
        simp only [List.length_cons, SpecWord.headersOkGo]
        rw [if_neg (by omega : ¬ 257 - r < 128)]
        rw [if_pos (by constructor <;> omega : 129 ≤ 257 - r ∧ 257 - r ≤ 255)]
        rw [List.drop_succ_cons, List.drop_zero]
        rw [SpecWord.headersOkGo_stable (out.length + 1) out.length out (by omega) (le_refl _)]
        exact ih _ hdl
      · set k := min (litLen (b :: t)) MAX_RUN_LENGTH with hk_def
        have hrun0 : runLen b t = 0 := by rw [ModTs.MAX_eq] at hr; omega
        have hk128 : k ≤ 128 := by rw [hk_def, ModTs.MAX_eq]; omega
        have hkpos : 0 < k := by
          have h1 := litLen_pos b t hrun0
          rw [hk_def, ModTs.MAX_eq]
          omega
        have hklen : k ≤ t.length + 1 := by
          have h2 := litLen_le (b :: t)
          simp only [List.length_cons] at h2
          have := Nat.min_le_left (litLen (b :: t)) MAX_RUN_LENGTH
          omega
        have htk : ((b :: t).take k).length = k := by
          simp only [List.length_take, List.length_cons]
          omega
        rw [ModTs.compress_cons_lit b t hr]
        set out := ModTs.compress ((b :: t).drop k) with hout
        have hdl : ((b :: t).drop k).length ≤ f := by
          simp only [List.length_drop, List.length_cons]
          omega
        have hrest_len : ((b :: t).take k ++ out).length = k + out.length := by
          simp [htk]
        simp only [List.length_cons, SpecWord.headersOkGo, hrest_len]
        rw [if_pos (by omega : k - 1 < 128)]
        rw [(by omega : k - 1 + 1 = k), List.drop_left' htk]
        rw [SpecWord.headersOkGo_stable (k + out.length) out.length out (by omega) (le_refl _)]
        exact ih _ hdl

/-! ## Output-size bound for the `/src/mod.ts` encoder -/

theorem ModTs.compress_length_core : ∀ (fuel : Nat) (l : List Nat), l.length ≤ fuel →
    (ModTs.compress l).length ≤ 2 * l.length := by
  intro fuel
  induction fuel with
  | zero =>
    intro l h
    have : l = [] := List.length_eq_zero.mp (Nat.le_zero.mp h)
    subst this
    simp [ModTs.compress_nil]
  | succ f ih =>
    intro l h
    cases l with
    | nil => simp [ModTs.compress_nil]
    | cons b t =>
      simp only [List.length_cons] at h
      by_cases hr : 1 < min (runLen b t + 1) MAX_RUN_LENGTH
      · set r := min (runLen b t + 1) MAX_RUN_LENGTH with hr_def
        have hrlen : r ≤ t.length + 1 :=
          le_trans (Nat.min_le_left _ _) (Nat.succ_le_succ (runLen_le b t))
        rw [ModTs.compress_cons_rep b t hr, ← hr_def]
        have hdl : ((b :: t).drop r).length ≤ f := by
          simp only [List.length_drop, List.length_cons]
          omega
        have := ih _ hdl
        simp only [List.length_drop, List.length_cons] at this ⊢
        omega
      · set k := min (litLen (b :: t)) MAX_RUN_LENGTH with hk_def
        have hrun0 : runLen b t = 0 := by rw [ModTs.MAX_eq] at hr; omega
        have hkpos : 0 < k := by
          have h1 := litLen_pos b t hrun0
          rw [hk_def, ModTs.MAX_eq]
          omega
        have hklen : k ≤ t.length + 1 := by
          have h2 := litLen_le (b :: t)
          simp only [List.length_cons] at h2
          have := Nat.min_le_left (litLen (b :: t)) MAX_RUN_LENGTH
          omega
        have htk : ((b :: t).take k).length = k := by
          simp only [List.length_take, List.length_cons]
          omega
        rw [ModTs.compress_cons_lit b t hr, ← hk_def]
        have hdl : ((b :: t).drop k).length ≤ f := by
          simp only [List.length_drop, List.length_cons]
          omega
        have := ih _ hdl
        simp only [List.length_cons, List.length_append, htk, List.length_drop] at this ⊢
        omega

/-! ## Single-run inputs -/

theorem ModTs.compress_single (b : Nat) : ModTs.compress [b] = [0, b] := by
  have hr : ¬ 1 < min (runLen b [] + 1) MAX_RUN_LENGTH := by
    simp [runLen, ModTs.MAX_eq]
  rw [ModTs.compress_cons_lit b [] hr]
  simp [litLen, ModTs.MAX_eq, ModTs.compress_nil]

theorem ModTs.compress_replicate (b n : Nat) (h2 : 2 ≤ n) (h128 : n ≤ 128) :
    ModTs.compress (List.replicate n b) = [257 - n, b] := by
  obtain ⟨m, rfl⟩ : ∃ m, n = m + 1 := ⟨n - 1, by omega⟩
  rw [List.replicate_succ]
  have hmin : min (runLen b (List.replicate m b) + 1) MAX_RUN_LENGTH = m + 1 := by
    rw [runLen_replicate, ModTs.MAX_eq]
    omega
  have hr : 1 < min (runLen b (List.replicate m b) + 1) MAX_RUN_LENGTH := by omega
  rw [ModTs.compress_cons_rep b _ hr, hmin, ← List.replicate_succ, List.drop_replicate]
  simp [ModTs.compress_nil]

/-! ## The claims -/

/-- Claim C1: for every byte sequence `x`, including the empty sequence,
`decompress(compress(x))` returns exactly `x` — the round-trip identity of the
`/src/mod.ts` encoder/decoder pair (proved for all inputs, byte-valued or
not). -/
theorem C1_round_trip (x : List Nat) :
    ModTs.decompress (ModTs.compress x) = some x := by
  obtain ⟨hc, he⟩ := ModTs.roundtrip_core x.length x (le_refl _)
  unfold ModTs.decompress ModTs.calculateDecompressedSize
  rw [hc]
  exact congrArg some he

/-- Claim C2 (code bug in `/src/mod.ts`): the claim says `decompress` fails
iff some header's payload is not fully present — but `/src/mod.ts` also fails
on the input `[0x80]`, whose single no-op header has its (empty) payload fully
present.  The newer decoder in the repository satisfies the claimed
equivalence exactly: it fails iff some header's payload is missing (and
failure yields no output, since validation precedes allocation). -/
theorem C2_decode_failure :
    ModTs.decompress [128] = none ∧ SpecWord.payloadsPresent [128] = true ∧
    (∀ l : List Nat, V2.decompress l = none ↔ SpecWord.payloadsPresent l = false) :=
  ⟨rfl, rfl, V2.decompress_none_iff_payloads⟩

/-- Claim C3 (code bug in `/src/mod.ts`): a header byte 128 must be accepted
at any position.  `/src/mod.ts` accepts it at non-final positions (consuming
zero payload and producing zero output, as in `[0x80, 0x00, 0x05]`), but its
`calculateDecompressedSize` throws on a 128 header that is the final byte,
as on the input `[0x80]`; the newer decoder in the repository accepts that
input as required. -/
theorem C3_noop_header :
    ModTs.decompress [128] = none ∧
    ModTs.decompress [128, 0, 5] = some [5] ∧
    V2.decompress [128] = some [] ∧
    V2.decompress [128, 0, 5] = some [5] :=
  ⟨rfl, rfl, rfl, rfl⟩

/-- Claim C4, counterexample: on the 129-byte input consisting of 127
pairwise-distinct bytes followed by a 2-byte repeat, the context-aware
encoder splits the repeat across its 128-byte literal cap and produces 131
bytes, while the boundary-only `/src/mod.ts` encoder produces 130. -/
theorem C4_counterexample :
    ¬ ((Ctx.compress (List.range 127 ++ [200, 200])).length
        ≤ (ModTs.compress (List.range 127 ++ [200, 200])).length) := by
  decide

/-- Claim C5 (code bug in `/src/mod.ts`): the claim (and the repository's own
test `L-R2-L` in `/src/mod.test.ts`) expects
`compress([0x54,0xAA,0xAA,0x80,0x00]) = [0x04,0x54,0xAA,0xAA,0x80,0x00]`,
but `/src/mod.ts` emits the 2-byte repeat as its own replicate run and
returns a 7-byte result; the repository's context-aware encoder returns
exactly the expected output. -/
theorem C5_absorbed_pair :
    ModTs.compress [0x54, 0xAA, 0xAA, 0x80, 0x00]
        = [0x00, 0x54, 0xFF, 0xAA, 0x01, 0x80, 0x00] ∧
    Ctx.compress [0x54, 0xAA, 0xAA, 0x80, 0x00]
        = [0x04, 0x54, 0xAA, 0xAA, 0x80, 0x00] := by
  exact ⟨by decide, by decide⟩

/-- Claim C6: for every input, every header emitted by the `/src/mod.ts`
`compress` lies in `[0,127]` (literal) or `[129,255]` (replicate); in
particular no header equals 128. -/
theorem C6_no_noop_headers (x : List Nat) :
    SpecWord.headersOk (ModTs.compress x) = true :=
  ModTs.compress_headersOk_core x.length x (le_refl _)

/-- Claim C7: for every byte value `b`, 128 consecutive copies of `b`
compress to exactly `[0x81, b]`, and 129 copies compress to a 128-byte
replicate run followed by a length-1 literal run. -/
theorem C7_boundary_runs (b : Nat) :
    ModTs.compress (List.replicate 128 b) = [0x81, b] ∧
    ModTs.compress (List.replicate 129 b) = [0x81, b, 0x00, b] := by
  constructor
  · rw [ModTs.compress_replicate b 128 (by norm_num) (by norm_num)]
  · rw [show (129 : Nat) = 128 + 1 from rfl, List.replicate_succ]
    have hmin : min (runLen b (List.replicate 128 b) + 1) MAX_RUN_LENGTH = 128 := by
      rw [runLen_replicate, ModTs.MAX_eq]
      omega
    have hr : 1 < min (runLen b (List.replicate 128 b) + 1) MAX_RUN_LENGTH := by omega
    rw [ModTs.compress_cons_rep b _ hr, hmin]
    have hdrop : (b :: List.replicate 128 b).drop 128 = [b] := by
      rw [← List.replicate_succ, List.drop_replicate]
      norm_num
    rw [hdrop, ModTs.compress_single]

/-- Claim C8: for every input `x`, the `/src/mod.ts` `compress` output has
length at most `2 * x.length`. -/
theorem C8_output_at_most_double (x : List Nat) :
    (ModTs.compress x).length ≤ 2 * x.length :=
  ModTs.compress_length_core x.length x (le_refl _)

/-- Claim C9: the stack-based `compress` with a caller-supplied scratch
buffer fails with `BufferTooSmall` iff the buffer is shorter than
`⌈1.5 × input length⌉`, and succeeds (returning a compressed result)
otherwise. -/
theorem C9_buffer_size_check (data buf : List Nat) :
    (V2.compress data (some buf) = Except.error V2.PBError.bufferTooSmall
        ↔ buf.length < V2.ceil15 data.length) ∧
    ((∃ out, V2.compress data (some buf) = Except.ok out)
        ↔ V2.ceil15 data.length ≤ buf.length) := by
  simp only [V2.compress]
  by_cases h : buf.length < V2.ceil15 data.length
  · rw [if_pos h]
    constructor
    · exact ⟨fun _ => h, fun _ => rfl⟩
    · constructor
      · rintro ⟨out, hout⟩
        exact absurd hout (by simp)
      · intro hge
        omega
  · rw [if_neg h]
    constructor
    · constructor
      · intro he
        exact absurd he (by simp)
      · intro hlt
        omega
    · exact ⟨fun _ => by omega, fun _ => ⟨_, rfl⟩⟩

/-- Claim C10: decompressing the empty packed sequence succeeds and returns
the empty sequence. -/
theorem C10_decompress_empty : ModTs.decompress [] = some [] := rfl

/-! ## Block-decomposition lemmas -/

namespace Blocks

theorem joinB_append : ∀ (xs ys : List (Nat × Nat)),
    joinB (xs ++ ys) = joinB xs ++ joinB ys := by
  intro xs ys
  induction xs with
  | nil => rfl
  | cons p xs ih =>
    obtain ⟨v, c⟩ := p
    simp [joinB, ih]

theorem length_joinB : ∀ bs : List (Nat × Nat), (joinB bs).length = sumB bs := by
  intro bs
  induction bs with
  | nil => rfl
  | cons p bs ih =>
    obtain ⟨v, c⟩ := p
    simp [joinB, sumB, ih]

theorem sumB_append : ∀ (xs ys : List (Nat × Nat)),
    sumB (xs ++ ys) = sumB xs + sumB ys := by
  intro xs ys
  induction xs with
  | nil => simp [sumB]
  | cons p xs ih =>
    obtain ⟨v, c⟩ := p
    simp [sumB, ih]
    omega

theorem joinB_blocks : ∀ l : List Nat, joinB (blocks l) = l := by
  intro l
  induction l with
  | nil => rfl
  | cons b t ih =>
    cases hbt : blocks t with
    | nil =>
      rw [hbt] at ih
      simp only [blocks, hbt]
      simp only [joinB] at ih ⊢
      simp [← ih]
    | cons p bs =>
      obtain ⟨c, k⟩ := p
      rw [hbt] at ih
      by_cases hbc : b = c
      · simp only [blocks, hbt, if_pos hbc]
        simp only [joinB, List.replicate_succ] at ih ⊢
        subst hbc
        simp [← ih]
      · simp only [blocks, hbt, if_neg hbc]
        simp only [joinB] at ih ⊢
        simp [← ih]

theorem blocks_counts_pos : ∀ (l : List Nat) (p : Nat × Nat), p ∈ blocks l → 1 ≤ p.2 := by
  intro l
  induction l with
  | nil => intro p hp; simp [blocks] at hp
  | cons b t ih =>
    intro p hp
    cases hbt : blocks t with
    | nil =>
      simp only [blocks, hbt] at hp
      simp at hp
      subst hp
      simp
    | cons q bs =>
      obtain ⟨c, k⟩ := q
      by_cases hbc : b = c
      · simp only [blocks, hbt, if_pos hbc] at hp
        rcases List.mem_cons.mp hp with h | h
        · subst h; simp
        · exact ih p (by rw [hbt]; exact List.mem_cons_of_mem _ h)
      · simp only [blocks, hbt, if_neg hbc] at hp
        rcases List.mem_cons.mp hp with h | h
        · subst h; simp
        · exact ih p (by rw [hbt]; exact h)

theorem blocks_chain : ∀ l : List Nat,
    List.Chain' (fun p q : Nat × Nat => p.1 ≠ q.1) (blocks l) := by
  intro l
  induction l with
  | nil => simp [blocks]
  | cons b t ih =>
    cases hbt : blocks t with
    | nil => simp only [blocks, hbt]; simp
    | cons q bs =>
      obtain ⟨c, k⟩ := q
      rw [hbt] at ih
      by_cases hbc : b = c
      · simp only [blocks, hbt, if_pos hbc]
        subst hbc
        rw [List.chain'_cons'] at ih ⊢
        exact ⟨ih.1, ih.2⟩
      · simp only [blocks, hbt, if_neg hbc]
        rw [List.chain'_cons']
        constructor
        · intro q hq
          simp at hq
          subst hq
          exact hbc
        · exact ih

theorem wfB_blocks (l : List Nat) : wfB (blocks l) :=
  ⟨blocks_chain l, blocks_counts_pos l⟩

theorem wfB_cons {v c bs'} (h : wfB ((v, c) :: bs')) : wfB bs' :=
  ⟨h.1.tail, fun p hp => h.2 p (List.mem_cons_of_mem _ hp)⟩

theorem wfB_suffix : ∀ (xs ys : List (Nat × Nat)), wfB (xs ++ ys) → wfB ys := by
  intro xs
  induction xs with
  | nil => intro ys h; exact h
  | cons p xs ih =>
    intro ys h
    obtain ⟨v, c⟩ := p
    exact ih ys (wfB_cons h)

theorem runLen_replicate_append (v : Nat) : ∀ (m : Nat) (rest : List Nat),
    runLen v (List.replicate m v ++ rest) = m + runLen v rest := by
  intro m
  induction m with
  | zero => intro rest; simp
  | succ n ih =>
    intro rest
    rw [List.replicate_succ, List.cons_append]
    show (if v = v then runLen v (List.replicate n v ++ rest) + 1 else 0)
        = n + 1 + runLen v rest
    rw [if_pos rfl, ih]
    omega

theorem runLen_joinB_ne (v : Nat) : ∀ bs : List (Nat × Nat),
    wfB bs → (∀ w d bs', bs = (w, d) :: bs' → w ≠ v) →
    runLen v (joinB bs) = 0 := by
  intro bs hwf hne
  cases bs with
  | nil => rfl
  | cons p bs' =>
    obtain ⟨w, d⟩ := p
    have hd : 1 ≤ d := hwf.2 (w, d) (List.mem_cons_self _ _)
    have hwv : w ≠ v := hne w d bs' rfl
    obtain ⟨e, rfl⟩ : ∃ e, d = e + 1 := ⟨d - 1, by omega⟩
    simp only [joinB, List.replicate_succ, List.cons_append, runLen]
    rw [if_neg hwv]

/-- Head-block normal form: a well-formed nonempty block list joins to its
value followed by the rest, and the leading run has exactly the head count. -/
theorem headRun (v c : Nat) (bs' : List (Nat × Nat)) (h : wfB ((v, c) :: bs')) :
    joinB ((v, c) :: bs') = v :: (List.replicate (c - 1) v ++ joinB bs') ∧
    runLen v (List.replicate (c - 1) v ++ joinB bs') = c - 1 := by
  have hc : 1 ≤ c := h.2 (v, c) (List.mem_cons_self _ _)
  have hne : ∀ w d bs'', bs' = (w, d) :: bs'' → w ≠ v := by
    intro w d bs'' hbs'
    have := (List.chain'_cons'.mp h.1).1
    subst hbs'
    have h2 := this (w, d) rfl
    exact fun hwv => h2 (by simp [hwv])
  have hrz : runLen v (joinB bs') = 0 := runLen_joinB_ne v bs' (wfB_cons h) hne
  constructor
  · obtain ⟨e, rfl⟩ : ∃ e, c = e + 1 := ⟨c - 1, by omega⟩
    simp [joinB, List.replicate_succ]
  · rw [runLen_replicate_append, hrz]
    omega

theorem litLen_joinB : ∀ bs : List (Nat × Nat), wfB bs →
    litLen (joinB bs) = (bs.takeWhile (fun p => p.2 == 1)).length := by
  intro bs
  induction bs with
  | nil => intro _; rfl
  | cons p bs' ih =>
    intro hwf
    obtain ⟨v, c⟩ := p
    have hc : 1 ≤ c := hwf.2 (v, c) (List.mem_cons_self _ _)
    by_cases hc1 : c = 1
    · subst hc1
      have hj : joinB ((v, 1) :: bs') = v :: joinB bs' := by
        simp [joinB]
      have htw : ((v, 1) :: bs').takeWhile (fun p => p.2 == 1)
          = (v, 1) :: bs'.takeWhile (fun p => p.2 == 1) := by
        simp [List.takeWhile_cons]
      rw [hj, htw, List.length_cons]
      cases hbs' : bs' with
      | nil => rfl
      | cons q bs'' =>
        obtain ⟨w, d⟩ := q
        have hd : 1 ≤ d := by
          refine hwf.2 (w, d) ?_
          rw [hbs']
          exact List.mem_cons_of_mem _ (List.mem_cons_self _ _)
        have hvw : v ≠ w := by
          have h2 := (List.chain'_cons'.mp hwf.1).1
          rw [hbs'] at h2
          exact h2 (w, d) rfl
        obtain ⟨e, rfl⟩ : ∃ e, d = e + 1 := ⟨d - 1, by omega⟩
        have hj2 : joinB ((w, e + 1) :: bs'') = w :: (List.replicate e w ++ joinB bs'') := by
          simp [joinB, List.replicate_succ]
        rw [hj2]
        show (if v = w then 0 else litLen (w :: (List.replicate e w ++ joinB bs'')) + 1)
            = (((w, e + 1) :: bs'').takeWhile (fun p => p.2 == 1)).length + 1
        rw [if_neg hvw, ← hj2]
        have := ih (by rw [← hbs'] at *; exact wfB_cons hwf)
        rw [hbs'] at this
        rw [this]
    · have hc2 : 2 ≤ c := by omega
      obtain ⟨e, rfl⟩ : ∃ e, c = e + 2 := ⟨c - 2, by omega⟩
      have hj : joinB ((v, e + 2) :: bs')
          = v :: v :: (List.replicate e v ++ joinB bs') := by
        simp only [joinB]
        rw [show e + 2 = (e + 1) + 1 from rfl, List.replicate_succ, List.replicate_succ]
        simp
      rw [hj]
      have htw : ((v, e + 2) :: bs').takeWhile (fun p => p.2 == 1) = [] := by
        simp [List.takeWhile_cons]
      rw [htw]
      show (if v = v then 0 else litLen (v :: (List.replicate e v ++ joinB bs')) + 1)
          = ([] : List (Nat × Nat)).length
      rw [if_pos rfl]
      rfl

theorem modtsCost_true_ones : ∀ (P rest : List (Nat × Nat)),
    (∀ p ∈ P, p.2 = 1) →
    modtsCost true (P ++ rest) = P.length + modtsCost true rest := by
  intro P
  induction P with
  | nil => intro rest _; simp
  | cons p P' ih =>
    intro rest h
    obtain ⟨v, c⟩ := p
    have hc : c = 1 := h (v, c) (List.mem_cons_self _ _)
    subst hc
    simp only [List.cons_append, List.append_eq, modtsCost, Bool.cond_true]
    rw [if_neg (by omega : ¬ 2 ≤ 1)]
    rw [ih rest (fun p hp => h p (List.mem_cons_of_mem _ hp))]
    simp only [List.length_cons]
    omega

theorem modtsCost_true_eq_false_of_big : ∀ rest : List (Nat × Nat),
    (rest = [] ∨ ∃ w d rest', rest = (w, d) :: rest' ∧ 2 ≤ d) →
    modtsCost true rest = modtsCost false rest := by
  intro rest h
  rcases h with rfl | ⟨w, d, rest', rfl, hd⟩
  · rfl
  · simp only [modtsCost]
    rw [if_pos hd, if_pos hd]

theorem ctxCost_true_small : ∀ (P rest : List (Nat × Nat)),
    (∀ p ∈ P, 1 ≤ p.2 ∧ p.2 ≤ 2) →
    ctxCost true (P ++ rest) = sumB P + ctxCost true rest := by
  intro P
  induction P with
  | nil => intro rest _; simp [sumB]
  | cons p P' ih =>
    intro rest h
    obtain ⟨v, c⟩ := p
    have hc := h (v, c) (List.mem_cons_self _ _)
    simp only [Prod.snd] at hc
    have hrec := ih rest (fun p hp => h p (List.mem_cons_of_mem _ hp))
    simp only [List.cons_append, List.append_eq, ctxCost, sumB, Bool.cond_true]
    by_cases hc2 : c = 2
    · subst hc2
      rw [if_neg (by omega : ¬ 3 ≤ 2), if_pos rfl, hrec]
      omega
    · have hc1 : c = 1 := by omega
      subst hc1
      rw [if_neg (by omega : ¬ 3 ≤ 1), if_neg (by omega : ¬ (1 : Nat) = 2), hrec]
      omega

theorem ctxCost_true_le_false : ∀ bs : List (Nat × Nat),
    ctxCost true bs ≤ ctxCost false bs := by
  intro bs
  induction bs with
  | nil => exact le_refl 0
  | cons p tl ih =>
    obtain ⟨v, c⟩ := p
    simp only [ctxCost]
    by_cases h3 : 3 ≤ c
    · rw [if_pos h3, if_pos h3]
    · rw [if_neg h3, if_neg h3]
      by_cases h2 : c = 2
      · rw [if_pos h2, if_pos h2]
        simp only [Bool.cond_true, Bool.cond_false]
        omega
      · rw [if_neg h2, if_neg h2]
        simp only [Bool.cond_true, Bool.cond_false]
        omega

theorem ctxCost_le_modtsCost : ∀ (bs : List (Nat × Nat)) (o : Bool),
    ctxCost o bs ≤ modtsCost o bs := by
  intro bs
  induction bs with
  | nil => intro o; exact le_refl 0
  | cons p tl ih =>
    intro o
    obtain ⟨v, c⟩ := p
    simp only [ctxCost, modtsCost]
    by_cases h3 : 3 ≤ c
    · rw [if_pos h3, if_pos (by omega : 2 ≤ c)]
      have := ih false
      omega
    · rw [if_neg h3]
      by_cases h2 : c = 2
      · rw [if_pos h2, if_pos (by omega : 2 ≤ c)]
        cases o with
        | false =>
          have := ih false
          simp only [Bool.cond_false]
          omega
        | true =>
          have h4 := ctxCost_true_le_false tl
          have h5 := ih false
          simp only [Bool.cond_true]
          omega
      · rw [if_neg h2, if_neg (by omega : ¬ 2 ≤ c)]
        have := ih true
        cases o <;> simp only [Bool.cond_true, Bool.cond_false] <;> omega

theorem sumB_ones : ∀ P : List (Nat × Nat), (∀ p ∈ P, p.2 = 1) → sumB P = P.length := by
  intro P
  induction P with
  | nil => intro _; rfl
  | cons p P' ih =>
    intro h
    obtain ⟨v, c⟩ := p
    have hc : c = 1 := h (v, c) (List.mem_cons_self _ _)
    subst hc
    simp only [sumB, List.length_cons]
    rw [ih (fun p hp => h p (List.mem_cons_of_mem _ hp))]
    omega

theorem modtsCost_false_ones_rest (ones rest : List (Nat × Nat))
    (hne : ones ≠ []) (h1 : ∀ p ∈ ones, p.2 = 1)
    (hrest : rest = [] ∨ ∃ w d rest', rest = (w, d) :: rest' ∧ 2 ≤ d) :
    modtsCost false (ones ++ rest) = ones.length + 1 + modtsCost false rest := by
  obtain ⟨o, ones', rfl⟩ : ∃ o ones', ones = o :: ones' := by
    cases ones with
    | nil => exact absurd rfl hne
    | cons o ones' => exact ⟨o, ones', rfl⟩
  obtain ⟨v, c⟩ := o
  have hc : c = 1 := h1 (v, c) (List.mem_cons_self _ _)
  subst hc
  simp only [List.cons_append, List.append_eq, modtsCost, Bool.cond_false]
  rw [if_neg (by omega : ¬ 2 ≤ 1)]
  rw [modtsCost_true_ones ones' rest (fun p hp => h1 p (List.mem_cons_of_mem _ hp))]
  rw [modtsCost_true_eq_false_of_big rest hrest]
  simp only [List.length_cons]
  omega

/-- The head block of `dropWhile (count == 1)` (when nonempty) has count at
least 2, given well-formedness. -/
theorem dropWhile_ones_head (bs : List (Nat × Nat)) (hwf : wfB bs) :
    bs.dropWhile (fun p => p.2 == 1) = []
      ∨ ∃ w d rest', bs.dropWhile (fun p => p.2 == 1) = (w, d) :: rest' ∧ 2 ≤ d := by
  cases hd : bs.dropWhile (fun p => p.2 == 1) with
  | nil => exact Or.inl rfl
  | cons q rest' =>
    obtain ⟨w, d⟩ := q
    refine Or.inr ⟨w, d, rest', rfl, ?_⟩
    have h1 : ¬ ((w, d).2 == 1) = true := by
      have h2 := List.head?_dropWhile_not (fun p : Nat × Nat => p.2 == 1) bs
      rw [hd] at h2
      simpa using h2
    have h3 : (w, d) ∈ bs := by
      have := List.dropWhile_sublist (l := bs) (p := fun p : Nat × Nat => p.2 == 1)
      rw [hd] at this
      exact this.subset (List.mem_cons_self _ _)
    have h4 : 1 ≤ d := hwf.2 (w, d) h3
    simp at h1
    omega

theorem modts_len_core : ∀ (N : Nat) (bs : List (Nat × Nat)), bs.length ≤ N →
    wfB bs → sumB bs ≤ 128 →
    (ModTs.compress (joinB bs)).length = modtsCost false bs := by
  intro N
  induction N with
  | zero =>
    intro bs hN _ _
    have : bs = [] := List.length_eq_zero.mp (Nat.le_zero.mp hN)
    subst this
    rfl
  | succ N ih =>
    intro bs hN hwf hsum
    cases bs with
    | nil => rfl
    | cons p bs' =>
      obtain ⟨v, c⟩ := p
      obtain ⟨hj, hT⟩ := headRun v c bs' hwf
      have hc : 1 ≤ c := hwf.2 (v, c) (List.mem_cons_self _ _)
      have hcsum : c + sumB bs' ≤ 128 := by
        simpa [sumB] using hsum
      set T := List.replicate (c - 1) v ++ joinB bs' with hTdef
      have hveq : v :: T = List.replicate c v ++ joinB bs' := by
        obtain ⟨e, rfl⟩ : ∃ e, c = e + 1 := ⟨c - 1, by omega⟩
        simp only [hTdef, List.replicate_succ, List.cons_append]
        congr 1
      by_cases hc2 : 2 ≤ c
      · -- replicate-run block
        have hmin : min (runLen v T + 1) MAX_RUN_LENGTH = c := by
          rw [hT, ModTs.MAX_eq]
          omega
        have hr : 1 < min (runLen v T + 1) MAX_RUN_LENGTH := by omega
        have hdrop : (v :: T).drop c = joinB bs' := by
          rw [hveq]
          exact List.drop_left' (by simp)
        rw [hj, ModTs.compress_cons_rep v T hr, hmin, hdrop]
        simp only [List.length_cons]
        rw [ih bs' (by simpa using hN) (wfB_cons hwf) (by omega)]
        simp only [modtsCost]
        rw [if_pos hc2]
        omega
      · -- literal block: c = 1; the whole leading stretch of 1-blocks
        have hc1 : c = 1 := by omega
        subst hc1
        have hr : ¬ 1 < min (runLen v T + 1) MAX_RUN_LENGTH := by
          rw [hT, ModTs.MAX_eq]
          omega
        set ones := ((v, 1) :: bs').takeWhile (fun p => p.2 == 1) with hones_def
        set rest := ((v, 1) :: bs').dropWhile (fun p => p.2 == 1) with hrest_def
        have hsplit : ones ++ rest = (v, 1) :: bs' :=
          List.takeWhile_append_dropWhile _ _
        have hones1 : ∀ p ∈ ones, p.2 = 1 := by
          intro p hp
          have := List.mem_takeWhile_imp hp
          simpa using this
        have hones_ne : ones ≠ [] := by
          rw [hones_def]
          simp [List.takeWhile_cons]
        set m := ones.length with hm_def
        have hm1 : 1 ≤ m := by
          rw [hm_def]
          cases hones : ones with
          | nil => exact absurd hones hones_ne
          | cons _ _ => simp [hones]
        have hsum_ones : sumB ones = m := sumB_ones ones hones1
        have hsum_split : sumB ((v, 1) :: bs') = m + sumB rest := by
          rw [← hsplit, sumB_append, hsum_ones]
        have hwf_rest : wfB rest := wfB_suffix ones rest (by rw [hsplit]; exact hwf)
        have hlit : litLen (joinB ((v, 1) :: bs')) = m := litLen_joinB _ hwf
        have hm128 : m ≤ 128 := by omega
        have hk : min (litLen (v :: T)) MAX_RUN_LENGTH = m := by
          rw [← hj, hlit, ModTs.MAX_eq]
          omega
        have hjoin_split : joinB ((v, 1) :: bs') = joinB ones ++ joinB rest := by
          rw [← hsplit, joinB_append]
        have hlen_ones : (joinB ones).length = m := by
          rw [length_joinB, hsum_ones]
        have hdropm : (v :: T).drop m = joinB rest := by
          rw [← hj, hjoin_split]
          exact List.drop_left' hlen_ones
        have htakelen : ((v :: T).take m).length = m := by
          simp only [List.length_take]
          have hlen_all : (v :: T).length = sumB ((v, 1) :: bs') := by
            rw [← hj, length_joinB]
          omega
        have hlen_split : m + rest.length = bs'.length + 1 := by
          have h5 := congrArg List.length hsplit
          simp only [List.length_append, List.length_cons] at h5
          omega
        have hlen_rest : rest.length ≤ N := by
          simp only [List.length_cons] at hN
          omega
        have hrest_big := dropWhile_ones_head ((v, 1) :: bs') hwf
        rw [← hrest_def] at hrest_big
        rw [hj, ModTs.compress_cons_lit v T hr, hk, hdropm]
        simp only [List.length_cons, List.length_append, htakelen]
        rw [ih rest hlen_rest hwf_rest (by omega)]
        rw [← hsplit, modtsCost_false_ones_rest ones rest hones_ne hones1 hrest_big]
        omega

end Blocks

/-! ## Facts about the context-aware encoder's inner loop -/

theorem Ctx.ctxInner_spec0 : ∀ (fuel lc : Nat) (l : List Nat),
    lc ≤ (Ctx.ctxInner fuel lc l).1 ∧
    (Ctx.ctxInner fuel lc l).2.length + ((Ctx.ctxInner fuel lc l).1 - lc) = l.length := by
  intro fuel
  induction fuel with
  | zero => intro lc l; exact ⟨le_refl _, by simp [Ctx.ctxInner]⟩
  | succ f ih =>
    intro lc l
    cases l with
    | nil => exact ⟨le_refl _, by simp [Ctx.ctxInner]⟩
    | cons b t =>
      simp only [Ctx.ctxInner]
      by_cases h1 : lc < MAX_RUN_LENGTH
      · rw [if_pos h1]
        by_cases h2 : 3 ≤ min (runLen b t + 1) MAX_RUN_LENGTH
            ∨ (min (runLen b t + 1) MAX_RUN_LENGTH = 2 ∧ lc = 0)
        · rw [if_pos h2]
          exact ⟨le_refl _, by simp⟩
        · rw [if_neg h2]
          have ha_le : min (min (runLen b t + 1) MAX_RUN_LENGTH) (MAX_RUN_LENGTH - lc)
              ≤ t.length + 1 := by
            have := runLen_le b t
            rw [ModTs.MAX_eq]
            omega
          obtain ⟨ih1, ih2⟩ := ih
            (lc + min (min (runLen b t + 1) MAX_RUN_LENGTH) (MAX_RUN_LENGTH - lc))
            ((b :: t).drop (min (min (runLen b t + 1) MAX_RUN_LENGTH) (MAX_RUN_LENGTH - lc)))
          constructor
          · omega
          · simp only [List.length_drop, List.length_cons] at ih2 ⊢
            omega
      · rw [if_neg h1]
        exact ⟨le_refl _, by simp⟩

theorem Ctx.ctxGo_stable : ∀ (f₁ f₂ : Nat) (l : List Nat),
    l.length ≤ f₁ → l.length ≤ f₂ → Ctx.compressGo f₁ l = Ctx.compressGo f₂ l := by
  intro f₁
  induction f₁ with
  | zero =>
    intro f₂ l h₁ _
    have : l = [] := List.length_eq_zero.mp (Nat.le_zero.mp h₁)
    subst this
    cases f₂ <;> rfl
  | succ f ih =>
    intro f₂ l h₁ h₂
    cases l with
    | nil => cases f₂ <;> rfl
    | cons b0 t0 =>
      obtain ⟨g, rfl⟩ : ∃ g, f₂ = g + 1 := by
        cases f₂ with
        | zero => simp at h₂
        | succ g => exact ⟨g, rfl⟩
      simp only [Ctx.compressGo]
      obtain ⟨hk0, hlen⟩ := Ctx.ctxInner_spec0 (b0 :: t0).length 0 (b0 :: t0)
      rcases hpe : Ctx.ctxInner (b0 :: t0).length 0 (b0 :: t0) with ⟨k, l'⟩
      rw [hpe] at hlen
      simp only [Nat.sub_zero] at hlen
      cases l' with
      | nil => rfl
      | cons b t =>
        dsimp only
        simp only [List.length_cons] at h₁ h₂ hlen
        by_cases hk : k < MAX_RUN_LENGTH
        · rw [if_pos hk, if_pos hk]
          have hrc1 : 1 ≤ min (runLen b t + 1) MAX_RUN_LENGTH := by
            rw [ModTs.MAX_eq]
            omega
          have hd : ((b :: t).drop (min (runLen b t + 1) MAX_RUN_LENGTH)).length
              ≤ t0.length := by
            simp only [List.length_drop, List.length_cons]
            omega
          congr 3
          exact ih g _ (by omega) (by omega)
        · rw [if_neg hk, if_neg hk]
          rw [ModTs.MAX_eq] at hk
          have hd : t.length + 1 ≤ t0.length := by omega
          congr 1
          exact ih g (b :: t) (by simp only [List.length_cons]; omega)
            (by simp only [List.length_cons]; omega)

theorem Ctx.compress_step_done (b0 : Nat) (t0 : List Nat) (k : Nat)
    (hp : Ctx.ctxInner (b0 :: t0).length 0 (b0 :: t0) = (k, [])) :
    Ctx.compress (b0 :: t0) = if 0 < k then (k - 1) :: (b0 :: t0).take k else [] := by
  show Ctx.compressGo (b0 :: t0).length (b0 :: t0) = _
  rw [show (b0 :: t0).length = t0.length + 1 from rfl]
  simp only [Ctx.compressGo]
  rw [hp]

theorem Ctx.compress_step_rep (b0 : Nat) (t0 : List Nat) (k b : Nat) (t : List Nat)
    (hp : Ctx.ctxInner (b0 :: t0).length 0 (b0 :: t0) = (k, b :: t))
    (hk : k < MAX_RUN_LENGTH) :
    Ctx.compress (b0 :: t0)
      = (if 0 < k then (k - 1) :: (b0 :: t0).take k else [])
          ++ (257 - min (runLen b t + 1) MAX_RUN_LENGTH) :: b
          :: Ctx.compress ((b :: t).drop (min (runLen b t + 1) MAX_RUN_LENGTH)) := by
  obtain ⟨-, hlen⟩ := Ctx.ctxInner_spec0 (b0 :: t0).length 0 (b0 :: t0)
  rw [hp] at hlen
  simp only [Nat.sub_zero, List.length_cons] at hlen
  have hrc1 : 1 ≤ min (runLen b t + 1) MAX_RUN_LENGTH := by
    rw [ModTs.MAX_eq]
    omega
  have hbound : ((b :: t).drop (min (runLen b t + 1) MAX_RUN_LENGTH)).length ≤ t0.length := by
    simp only [List.length_drop, List.length_cons]
    omega
  show Ctx.compressGo (b0 :: t0).length (b0 :: t0) = _
  rw [show (b0 :: t0).length = t0.length + 1 from rfl]
  simp only [Ctx.compressGo]
  rw [hp]
  dsimp only
  rw [if_pos hk]
  congr 3
  exact Ctx.ctxGo_stable t0.length _ _ hbound (le_refl _)

theorem Ctx.compress_step_cap (b0 : Nat) (t0 : List Nat) (k b : Nat) (t : List Nat)
    (hp : Ctx.ctxInner (b0 :: t0).length 0 (b0 :: t0) = (k, b :: t))
    (hk : ¬ k < MAX_RUN_LENGTH) :
    Ctx.compress (b0 :: t0)
      = (if 0 < k then (k - 1) :: (b0 :: t0).take k else [])
          ++ Ctx.compress (b :: t) := by
  obtain ⟨-, hlen⟩ := Ctx.ctxInner_spec0 (b0 :: t0).length 0 (b0 :: t0)
  rw [hp] at hlen
  simp only [Nat.sub_zero, List.length_cons] at hlen
  rw [ModTs.MAX_eq] at hk
  have hbound : (b :: t).length ≤ t0.length := by
    simp only [List.length_cons]
    omega
  show Ctx.compressGo (b0 :: t0).length (b0 :: t0) = _
  rw [show (b0 :: t0).length = t0.length + 1 from rfl]
  simp only [Ctx.compressGo]
  rw [hp]
  dsimp only
  rw [if_neg (by rw [ModTs.MAX_eq]; exact hk)]
  congr 1
  exact Ctx.ctxGo_stable t0.length _ _ hbound (le_refl _)

namespace Blocks

/-- Starting a fresh literal run at a block of count ≥ 2, the inner loop
breaks out immediately (the repeat run is emitted instead). -/
theorem ctxInner_break_big (v c : Nat) (bs' : List (Nat × Nat))
    (hwf : wfB ((v, c) :: bs')) (hc2 : 2 ≤ c) (hc128 : c ≤ 128) :
    Ctx.ctxInner (joinB ((v, c) :: bs')).length 0 (joinB ((v, c) :: bs'))
      = (0, joinB ((v, c) :: bs')) := by
  obtain ⟨hj, hT⟩ := headRun v c bs' hwf
  set T := List.replicate (c - 1) v ++ joinB bs' with hTdef
  rw [hj, show (v :: T).length = T.length + 1 from rfl]
  simp only [Ctx.ctxInner]
  rw [if_pos (by rw [ModTs.MAX_eq]; omega : 0 < MAX_RUN_LENGTH)]
  rw [if_pos ?cond]
  case cond =>
    rw [hT, ModTs.MAX_eq]
    by_cases h3 : 3 ≤ c
    · exact Or.inl (by omega)
    · exact Or.inr ⟨by omega, trivial⟩

/-- With a literal run already open (`1 ≤ lc`), the inner loop absorbs
exactly the maximal leading stretch of blocks of count ≤ 2 (no 128-cap split
can occur when the total content fits in 128 bytes). -/
theorem ctxInner_absorb : ∀ (bs : List (Nat × Nat)) (lc fuel : Nat),
    wfB bs → 1 ≤ lc → lc + sumB bs ≤ 128 → (joinB bs).length ≤ fuel →
    Ctx.ctxInner fuel lc (joinB bs)
      = (lc + sumB (bs.takeWhile (fun p => decide (p.2 ≤ 2))),
         joinB (bs.dropWhile (fun p => decide (p.2 ≤ 2)))) := by
  intro bs
  induction bs with
  | nil =>
    intro lc fuel _ _ _ _
    show Ctx.ctxInner fuel lc [] = (lc + sumB [], joinB [])
    cases fuel <;> simp [Ctx.ctxInner, sumB, joinB]
  | cons p bs' ih =>
    intro lc fuel hwf hlc hsum hfuel
    obtain ⟨v, c⟩ := p
    obtain ⟨hj, hT⟩ := headRun v c bs' hwf
    have hc : 1 ≤ c := hwf.2 (v, c) (List.mem_cons_self _ _)
    have hcsum : c + sumB bs' ≤ 128 - lc := by
      have : sumB ((v, c) :: bs') = c + sumB bs' := by simp [sumB]
      omega
    have hlenj : (joinB ((v, c) :: bs')).length = sumB ((v, c) :: bs') := length_joinB _
    have hsumc : sumB ((v, c) :: bs') = c + sumB bs' := by simp [sumB]
    obtain ⟨g, rfl⟩ : ∃ g, fuel = g + 1 := by
      refine ⟨fuel - 1, ?_⟩
      have : 1 ≤ (joinB ((v, c) :: bs')).length := by omega
      omega
    set T := List.replicate (c - 1) v ++ joinB bs' with hTdef
    rw [hj]
    simp only [Ctx.ctxInner]
    rw [if_pos (by rw [ModTs.MAX_eq]; omega : lc < MAX_RUN_LENGTH)]
    have hrc : min (runLen v T + 1) MAX_RUN_LENGTH = c := by
      rw [hT, ModTs.MAX_eq]
      omega
    by_cases hc3 : 3 ≤ c
    · rw [if_pos (by rw [hrc]; exact Or.inl hc3)]
      have htw : ((v, c) :: bs').takeWhile (fun p => decide (p.2 ≤ 2)) = [] := by
        simp [List.takeWhile_cons]
        omega
      have hdw : ((v, c) :: bs').dropWhile (fun p => decide (p.2 ≤ 2)) = (v, c) :: bs' := by
        simp [List.dropWhile_cons]
        omega
      rw [htw, hdw, ← hj]
      simp [sumB]
    · rw [if_neg (by rw [hrc]; omega)]
      have ha : min (min (runLen v T + 1) MAX_RUN_LENGTH) (MAX_RUN_LENGTH - lc) = c := by
        rw [hrc, ModTs.MAX_eq]
        omega
      rw [ha]
      have hdropc : (v :: T).drop c = joinB bs' := by
        have hveq : v :: T = List.replicate c v ++ joinB bs' := by
          obtain ⟨e, rfl⟩ : ∃ e, c = e + 1 := ⟨c - 1, by omega⟩
          simp only [hTdef, List.replicate_succ, List.cons_append]
          congr 1
        rw [hveq]
        exact List.drop_left' (by simp)
      rw [hdropc]
      have hfuel' : (joinB bs').length ≤ g := by
        rw [length_joinB] at hfuel ⊢
        rw [hsumc] at hfuel
        omega
      rw [ih (lc + c) g (wfB_cons hwf) (by omega) (by omega) hfuel']
      have htw : ((v, c) :: bs').takeWhile (fun p => decide (p.2 ≤ 2))
          = (v, c) :: bs'.takeWhile (fun p => decide (p.2 ≤ 2)) := by
        simp [List.takeWhile_cons]
        omega
      have hdw : ((v, c) :: bs').dropWhile (fun p => decide (p.2 ≤ 2))
          = bs'.dropWhile (fun p => decide (p.2 ≤ 2)) := by
        simp [List.dropWhile_cons]
        omega
      rw [htw, hdw]
      simp only [sumB]
      congr 1
      omega

/-- The head block of `dropWhile (count ≤ 2)` (when nonempty) has count at
least 3. -/
theorem dropWhile_small_head (bs : List (Nat × Nat)) :
    bs.dropWhile (fun p => decide (p.2 ≤ 2)) = []
      ∨ ∃ w d rest', bs.dropWhile (fun p => decide (p.2 ≤ 2)) = (w, d) :: rest' ∧ 3 ≤ d := by
  cases hd : bs.dropWhile (fun p => decide (p.2 ≤ 2)) with
  | nil => exact Or.inl rfl
  | cons q rest' =>
    obtain ⟨w, d⟩ := q
    refine Or.inr ⟨w, d, rest', rfl, ?_⟩
    have h1 : ¬ (decide ((w, d).2 ≤ 2)) = true := by
      have h2 := List.head?_dropWhile_not (fun p : Nat × Nat => decide (p.2 ≤ 2)) bs
      rw [hd] at h2
      simpa using h2
    simp at h1
    omega

end Blocks

namespace Blocks

theorem ctx_len_core : ∀ (N : Nat) (bs : List (Nat × Nat)), bs.length ≤ N →
    wfB bs → sumB bs ≤ 128 →
    (Ctx.compress (joinB bs)).length = ctxCost false bs := by
  intro N
  induction N with
  | zero =>
    intro bs hN _ _
    have : bs = [] := List.length_eq_zero.mp (Nat.le_zero.mp hN)
    subst this
    rfl
  | succ N ih =>
    intro bs hN hwf hsum
    cases bs with
    | nil => rfl
    | cons p bs' =>
      obtain ⟨v, c⟩ := p
      obtain ⟨hj, hT⟩ := headRun v c bs' hwf
      have hc : 1 ≤ c := hwf.2 (v, c) (List.mem_cons_self _ _)
      have hsumc : sumB ((v, c) :: bs') = c + sumB bs' := by simp [sumB]
      set T := List.replicate (c - 1) v ++ joinB bs' with hTdef
      by_cases hc2 : 2 ≤ c
      · -- head block of count ≥ 2: emitted directly as a replicate run
        have hp := ctxInner_break_big v c bs' hwf hc2 (by omega)
        rw [hj] at hp
        have hk : (0 : Nat) < MAX_RUN_LENGTH := by rw [ModTs.MAX_eq]; omega
        have hrc : min (runLen v T + 1) MAX_RUN_LENGTH = c := by
          rw [hT, ModTs.MAX_eq]
          omega
        have hdropc : (v :: T).drop c = joinB bs' := by
          have hveq : v :: T = List.replicate c v ++ joinB bs' := by
            obtain ⟨e, rfl⟩ : ∃ e, c = e + 1 := ⟨c - 1, by omega⟩
            simp only [hTdef, List.replicate_succ, List.cons_append]
            congr 1
          rw [hveq]
          exact List.drop_left' (by simp)
        rw [hj, Ctx.compress_step_rep v T 0 v T hp hk, hrc, hdropc]
        simp only [List.length_append, List.length_cons]
        rw [if_neg (by omega : ¬ 0 < 0)]
        rw [ih bs' (by simpa using hN) (wfB_cons hwf) (by omega)]
        simp only [ctxCost, List.length_nil]
        by_cases hc3 : 3 ≤ c
        · rw [if_pos hc3]
          omega
        · rw [if_neg hc3, if_pos (by omega : c = 2)]
          simp only [Bool.cond_false]
          omega
      · -- head block of count 1: a literal stretch is absorbed
        have hc1 : c = 1 := by omega
        subst hc1
        have hrunT : runLen v T = 0 := by rw [hT]
        have hTeq : T = joinB bs' := by simp [hTdef]
        set P' := bs'.takeWhile (fun p => decide (p.2 ≤ 2)) with hP'_def
        set R' := bs'.dropWhile (fun p => decide (p.2 ≤ 2)) with hR'_def
        have hsplit : P' ++ R' = bs' := List.takeWhile_append_dropWhile _ _
        have hmemP : ∀ p ∈ P', 1 ≤ p.2 ∧ p.2 ≤ 2 := by
          intro p hp
          constructor
          · refine (wfB_cons hwf).2 p ?_
            rw [← hsplit]
            exact List.mem_append_left _ hp
          · have := List.mem_takeWhile_imp hp
            simpa using this
        have hsumP : sumB bs' = sumB P' + sumB R' := by
          rw [← hsplit, sumB_append]
        have hp : Ctx.ctxInner (v :: T).length 0 (v :: T)
            = (1 + sumB P', joinB R') := by
          rw [show (v :: T).length = T.length + 1 from rfl]
          simp only [Ctx.ctxInner]
          rw [if_pos (by rw [ModTs.MAX_eq]; omega : 0 < MAX_RUN_LENGTH)]
          rw [if_neg ?notbreak]
          case notbreak =>
            rw [hrunT, ModTs.MAX_eq]
            simp
          rw [show min (min (runLen v T + 1) MAX_RUN_LENGTH) (MAX_RUN_LENGTH - 0) = 1 from by
            rw [hrunT, ModTs.MAX_eq]
            decide]
          rw [List.drop_succ_cons, List.drop_zero, hTeq]
          simp only [Nat.zero_add]
          have habs := ctxInner_absorb bs' 1 T.length (wfB_cons hwf) (le_refl 1)
            (by omega) (by rw [hTeq])
          rw [← hP'_def, ← hR'_def] at habs
          rw [hTeq] at habs
          exact habs
        set k := 1 + sumB P' with hk_def
        have hlenvT : (v :: T).length = 1 + sumB bs' := by
          rw [show (v :: T).length = T.length + 1 from rfl, hTeq, length_joinB]
          omega
        have hkle : k ≤ (v :: T).length := by
          rw [hlenvT]
          omega
        rcases dropWhile_small_head bs' with hR0 | ⟨w, d, R'', hReq, hd3⟩
        · -- no replicate block follows: the literal reaches end of input
          rw [← hR'_def] at hR0
          rw [hR0] at hp
          have hPbs : P' = bs' := by
            rw [← hsplit, hR0, List.append_nil]
          rw [hj, Ctx.compress_step_done v T k (by rw [hp]; rfl)]
          rw [if_pos (by omega : 0 < k)]
          simp only [List.length_cons, List.length_take]
          rw [hsumc] at hsum
          simp only [ctxCost]
          rw [if_neg (by omega : ¬ 3 ≤ 1), if_neg (by omega : ¬ (1 : Nat) = 2)]
          simp only [Bool.cond_false]
          have hcost : ctxCost true bs' = sumB P' := by
            conv_lhs => rw [← hPbs]
            have h9 := ctxCost_true_small P' [] hmemP
            simpa using h9
          rw [hcost]
          have hTlen : T.length = sumB bs' := by rw [hTeq, length_joinB]
          have hsPbs : sumB P' = sumB bs' := by rw [hPbs]
          omega
        · -- a replicate block of count ≥ 3 follows the literal stretch
          rw [← hR'_def] at hReq
          have hwfR : wfB R' := wfB_suffix P' R' (by rw [hsplit]; exact wfB_cons hwf)
          rw [hReq] at hwfR
          obtain ⟨hj2, hT2⟩ := headRun w d R'' hwfR
          set T₂ := List.replicate (d - 1) w ++ joinB R'' with hT2def
          rw [hReq, hj2] at hp
          have hsumR : sumB R' = d + sumB R'' := by rw [hReq]; simp [sumB]
          have hsum' : 1 + sumB P' + sumB R' ≤ 128 := by
            rw [hsumc, hsumP] at hsum
            omega
          have hk128 : k < MAX_RUN_LENGTH := by
            rw [ModTs.MAX_eq]
            omega
          have hrc2 : min (runLen w T₂ + 1) MAX_RUN_LENGTH = d := by
            rw [hT2, ModTs.MAX_eq]
            omega
          have hdropd : (w :: T₂).drop d = joinB R'' := by
            have hveq : w :: T₂ = List.replicate d w ++ joinB R'' := by
              obtain ⟨e, rfl⟩ : ∃ e, d = e + 1 := ⟨d - 1, by omega⟩
              simp only [hT2def, List.replicate_succ, List.cons_append]
              congr 1
            rw [hveq]
            exact List.drop_left' (by simp)
          have hlenR'' : R''.length ≤ N := by
            have h7 := congrArg List.length hsplit
            simp only [List.length_append, hReq, List.length_cons] at h7 hN
            omega
          rw [hj, Ctx.compress_step_rep v T k w T₂ hp hk128, hrc2, hdropd]
          rw [if_pos (by omega : 0 < k)]
          simp only [List.length_append, List.length_cons, List.length_take]
          rw [ih R'' hlenR'' (wfB_cons hwfR) (by omega)]
          simp only [ctxCost]
          rw [if_neg (by omega : ¬ 3 ≤ 1), if_neg (by omega : ¬ (1 : Nat) = 2)]
          simp only [Bool.cond_false]
          have hcost : ctxCost true bs' = sumB P' + (2 + ctxCost false R'') := by
            rw [← hsplit]
            rw [ctxCost_true_small P' R' hmemP]
            congr 1
            rw [hReq]
            simp only [ctxCost]
            rw [if_pos hd3]
          rw [hcost]
          have hTlen : T.length = sumB bs' := by rw [hTeq, length_joinB]
          omega

end Blocks

/-- Claim C4, amended: for every input of length at most 128 (so that the
context-aware encoder's 128-byte literal cap never splits a 2-byte repeat),
the context-aware encoder's output is never longer than that of the
boundary-only `/src/mod.ts` variant that emits every length-2 repeat as its
own replicate run. -/
theorem C4_context_aware_dominates (x : List Nat) (h : x.length ≤ 128) :
    (Ctx.compress x).length ≤ (ModTs.compress x).length := by
  have hx : Blocks.joinB (Blocks.blocks x) = x := Blocks.joinB_blocks x
  have hwf := Blocks.wfB_blocks x
  have hsum : Blocks.sumB (Blocks.blocks x) ≤ 128 := by
    rw [← Blocks.length_joinB, hx]
    exact h
  have h1 := Blocks.ctx_len_core (Blocks.blocks x).length (Blocks.blocks x)
    (le_refl _) hwf hsum
  have h2 := Blocks.modts_len_core (Blocks.blocks x).length (Blocks.blocks x)
    (le_refl _) hwf hsum
  rw [hx] at h1 h2
  rw [h1, h2]
  exact Blocks.ctxCost_le_modtsCost _ false

/-- Witness for the amended claim C4 at a concrete input. -/
theorem C4_context_aware_dominates_witness :
    ([0x54, 0xAA, 0xAA, 0x80, 0x00] : List Nat).length ≤ 128 ∧
    (Ctx.compress [0x54, 0xAA, 0xAA, 0x80, 0x00]).length
      ≤ (ModTs.compress [0x54, 0xAA, 0xAA, 0x80, 0x00]).length :=
  ⟨by decide, C4_context_aware_dominates _ (by decide)⟩
